import Mathlib

/-!
Shallow embedding of the awkward-array core: the `UnionArray` container
(`src/awkward/array/union.py`) and the recursive ragged indexing engine
(`src/tests/study_indexing.py`), with theorems checking the repository's
specification against this embedding.

Python numbers are modelled as `Int`, numpy integer arrays as `List Int`,
and every fallible operation returns `Except Err _` where `Err` names the
Python exception class raised by the source.
-/

namespace Awkward

/-- Python exception classes raised by the modelled code. -/
inductive Err where
  | valueError
  | indexError
  | typeError
  | notImplementedError
  | assertionError
deriving DecidableEq, Repr

/-- Scalar read `xs[i]` of a Python sequence / 1-D numpy array: a negative
index is offset by the length once, and anything still out of `[0, len)`
raises `IndexError`. -/
def pyGet {α : Type} (xs : List α) (i : Int) : Except Err α :=
  let j : Int := if i < 0 then i + xs.length else i
  match xs.get? j.toNat with
  | some v => if 0 ≤ j then .ok v else .error .indexError
  | none => .error .indexError

/-- Python slice `xs[a:b]` (step 1): negative bounds are offset by the
length and then clamped into `[0, len]`; never raises. -/
def pySlice {α : Type} (xs : List α) (a b : Int) : List α :=
  let norm : Int → Nat := fun v =>
    let v' : Int := if v < 0 then v + xs.length else v
    (min (max v' 0) xs.length).toNat
  (xs.take (norm b)).drop (norm a)

/-- Contiguous segment of `len` elements of a flat buffer starting at
position `start`. -/
def segment {α : Type} (data : List α) (start len : Nat) : List α :=
  (data.drop start).take len

/-- Maximum of a numpy array: `arr.max()` raises `ValueError` on an empty
array. -/
def npMax (xs : List Int) : Except Err Int :=
  match xs.max? with
  | none => .error .valueError
  | some m => .ok m

/-- Numpy element-type symbols appearing in `UnionArray.dtype`'s promotion
chain (`union.py` lines 117-173). -/
inductive DType where
  | bool | int8 | uint8 | int16 | uint16 | int32 | uint32 | int64 | uint64
  | float16 | float32 | float64 | float128
  | complex64 | complex128 | complex256
  | object
deriving DecidableEq, Repr

/-- Membership of a dtype in numpy's abstract `integer` class. -/
def DType.isInteger : DType → Bool
  | .int8 | .uint8 | .int16 | .uint16 | .int32 | .uint32 | .int64 | .uint64 => true
  | _ => false

/-- Membership of a dtype in numpy's abstract `floating` class. -/
def DType.isFloating : DType → Bool
  | .float16 | .float32 | .float64 | .float128 => true
  | _ => false

/-- Membership of a dtype in numpy's abstract `complexfloating` class. -/
def DType.isComplex : DType → Bool
  | .complex64 | .complex128 | .complex256 => true
  | _ => false

/-- Model of a numpy content array held by a `UnionArray`: its shape, its
element type, and (for the 1-D numeric arrays the data claims read) its
elements.  `len(arr)` is the leading shape entry. -/
structure NpArr where
  shape : List Nat
  dtype : DType
  data : List Int
deriving DecidableEq, Repr

/-- Python `len` of a numpy array: the leading axis length. -/
def NpArr.len (a : NpArr) : Nat := a.shape.headD 0

/-- Convenience constructor for a 1-D integer content array. -/
def NpArr.mk1 (data : List Int) : NpArr := ⟨[data.length], .int64, data⟩

/-- The `UnionArray.dtype` promotion chain (`union.py` lines 117-173),
translated clause for clause: each `elif` tests that every content's dtype
belongs to the listed tuple of numpy classes. -/
def unionDtype (cs : List DType) : DType :=
  if cs.all (fun d => d = .bool) then .bool
  else if cs.all (fun d => d = .int8) then .int8
  else if cs.all (fun d => d = .uint8) then .uint8
  else if cs.all (fun d => d = .int8 ∨ d = .uint8 ∨ d = .int16) then .int16
  else if cs.all (fun d => d = .uint8 ∨ d = .uint16) then .uint16
  else if cs.all (fun d => d = .int8 ∨ d = .uint8 ∨ d = .int16 ∨ d = .uint16 ∨ d = .int32) then .int32
  else if cs.all (fun d => d = .uint8 ∨ d = .uint16 ∨ d = .uint32) then .uint32
  else if cs.all (fun d => d = .int8 ∨ d = .uint8 ∨ d = .int16 ∨ d = .uint16 ∨ d = .int32 ∨ d = .uint32 ∨ d = .int64) then .int64
  else if cs.all (fun d => d = .uint8 ∨ d = .uint16 ∨ d = .uint32 ∨ d = .uint64) then .uint64
  else if cs.all (fun d => d = .float16) then .float16
  else if cs.all (fun d => d = .float16 ∨ d = .float32) then .float32
  else if cs.all (fun d => d = .float16 ∨ d = .float32 ∨ d = .float64) then .float64
  else if cs.all (fun d => d = .float16 ∨ d = .float32 ∨ d = .float64 ∨ d = .float128) then .float128
  else if cs.all (fun d => d.isInteger ∨ d.isFloating) then .float64
  else if cs.all (fun d => d = .complex64) then .complex64
  else if cs.all (fun d => d = .complex64 ∨ d = .complex128) then .complex128
  else if cs.all (fun d => d = .complex64 ∨ d = .complex128 ∨ d = .complex256) then .complex256
  else if cs.all (fun d => d.isInteger ∨ d.isFloating ∨ d.isComplex) then .complex256
  else .object

/-- Model of `UnionArray` with 1-D `tags` and `index` (the shapes the data
claims exercise); `tags.shape` is then `[tags.length]`. -/
structure UnionArray where
  tags : List Int
  index : List Int
  contents : List NpArr
deriving DecidableEq, Repr

/-- The `UnionArray.shape` property (`union.py` lines 175-181):
`first = contents[0].shape`; if the promoted dtype is object-kind or some
later content's full shape differs from `first`, the shape is
`tags.shape`, else `tags.shape + first`. -/
def unionShape (tagsShape : List Nat) : List NpArr → List Nat
  | [] => tagsShape
  | c :: rest =>
    if unionDtype ((c :: rest).map NpArr.dtype) = .object ∨ ¬ rest.all (fun x => x.shape = c.shape) then
      tagsShape
    else
      tagsShape ++ c.shape

/-- Shape of a `UnionArray` value in this 1-D-tags model. -/
def UnionArray.shape (u : UnionArray) : List Nat :=
  unionShape [u.tags.length] u.contents

/-- The `tags` setter's eager checks (`union.py` lines 80-88): integer
dtype (guaranteed by the `Int` model) and non-negativity. -/
def checkTags (v : List Int) : Except Err Unit :=
  if v.any (fun x => x < 0) then .error .valueError else .ok ()

/-- The `index` setter's eager checks (`union.py` lines 94-102). -/
def checkIndex (v : List Int) : Except Err Unit :=
  if v.any (fun x => x < 0) then .error .valueError else .ok ()

/-- The `contents` setter's eager check (`union.py` lines 108-114):
contents must be non-empty. -/
def checkContents (v : List NpArr) : Except Err Unit :=
  if v.length = 0 then .error .valueError else .ok ()

/-- `UnionArray.__init__` (`union.py` lines 38-42): runs the three attribute
setters; no cross-structure validation happens here. -/
def unionMake (tags index : List Int) (contents : List NpArr) : Except Err UnionArray := do
  checkTags tags
  checkIndex index
  checkContents contents
  .ok ⟨tags, index, contents⟩

/-- The `for x in self._contents` loop of `UnionArray._valid`
(`union.py` lines 202-204), kept with its unused loop variable: the body
compares `maxindex` against `len(self._contents)` (the NUMBER of content
arrays), not against `len(x)`. -/
def uvalidLoop (maxindex : Int) (numContents : Nat) : List NpArr → Except Err Unit
  | [] => .ok ()
  | _x :: rest =>
    if maxindex ≥ (numContents : Int) then .error .valueError
    else uvalidLoop maxindex numContents rest

/-- `UnionArray._valid` (`union.py` lines 190-206) as a pure validation
function (the `_isvalid` success cache is mutation bookkeeping with no
effect on a single read).  The two leading shape checks are trivially true
for 1-D `tags`/`index` and are omitted; then the tag-range check, then the
index loop. -/
def UnionArray.valid (u : UnionArray) : Except Err Unit := do
  let maxTag ← npMax u.tags
  if maxTag ≥ (u.contents.length : Int) then .error .valueError
  else do
    let maxindex ← npMax (u.index.take u.tags.length)
    uvalidLoop maxindex u.contents.length u.contents

/-- Element read of a 1-D content array, `contents[t][i]` (numpy scalar
indexing with negative wrap). -/
def NpArr.read (a : NpArr) (i : Int) : Except Err Int := pyGet a.data i

/-- `UnionArray.__getitem__` with a single integer (`union.py` lines
214-250), in the `_view is None` state every constructor produces:
validate, normalize a negative index by `len(tags)`, bounds-check, then
return `contents[tags[h]][index[h]]`. -/
def UnionArray.getInt (u : UnionArray) (i : Int) : Except Err Int := do
  u.valid
  let length : Int := u.tags.length
  let h : Int := if i < 0 then i + length else i
  if 0 ≤ h ∧ h < length then do
    let t ← pyGet u.tags h
    let c ← pyGet u.contents t
    let ix ← pyGet u.index h
    c.read ix
  else .error .indexError

/-- Helper for `fromtags`' derived index: position `i` receives the count
of earlier positions carrying the same tag (`index[tags == t] =
arange(count_nonzero(tags == t))` assigns `0,1,2,...` to the positions
with tag `t` in increasing position order). -/
def derivedIndexAux (prev : List Int) : List Int → List Int
  | [] => []
  | t :: rest => (prev.count t : Int) :: derivedIndexAux (prev ++ [t]) rest

/-- Derived index of `UnionArray.fromtags`: per-tag sequential enumeration. -/
def derivedIndex (tags : List Int) : List Int := derivedIndexAux [] tags

/-- `UnionArray.fromtags` (`union.py` lines 44-59): run the `tags` and
`contents` setters, raise `ValueError` if `max(tags) >= len(contents)`,
then fill `index` by per-tag sequential enumeration. -/
def UnionArray.fromtags (tags : List Int) (contents : List NpArr) : Except Err UnionArray := do
  checkTags tags
  checkContents contents
  let maxTag ← npMax tags
  if maxTag ≥ (contents.length : Int) then .error .valueError
  else .ok ⟨tags, derivedIndex tags, contents⟩

/-- Ragged structures the indexing engine operates on: either a flat 1-D
numpy buffer or a `JaggedArray(starts, stops, content)`. -/
inductive NDA where
  | flat (xs : List Int)
  | jag (starts stops : List Int) (content : NDA)
deriving DecidableEq, Repr

/-- Python `len` of an engine array: number of rows of a jagged array,
number of elements of a flat buffer. -/
def NDA.len : NDA → Nat
  | .flat xs => xs.length
  | .jag starts _ _ => starts.length

/-- Integer-array indexing `array[index]`: a flat buffer gathers elements
(with numpy's negative wrap); a jagged array gathers `(starts, stops)`
pairs over the shared content. -/
def NDA.gather : NDA → List Int → Except Err NDA
  | .flat xs, idx => do .ok (.flat (← idx.mapM (pyGet xs)))
  | .jag starts stops content, idx => do
    let s ← idx.mapM (pyGet starts)
    let t ← idx.mapM (pyGet stops)
    .ok (.jag s t content)

/-- Contiguous row slice `array[a:b]` used when stripping the synthetic
outer row. -/
def NDA.sliceRange : NDA → Int → Int → NDA
  | .flat xs, a, b => .flat (pySlice xs a b)
  | .jag starts stops content, a, b => .jag (pySlice starts a b) (pySlice stops a b) content

/-- Number of elements of Python `range(a, b, c)` for `c ≠ 0`: the
ceiling of `(b-a)/c` (or `(a-b)/(-c)` descending), zero when already
empty. -/
def intRangeLen (a b c : Int) : Nat :=
  if 0 < c then ((b - a).toNat + (c.toNat - 1)) / c.toNat
  else ((a - b).toNat + ((-c).toNat - 1)) / (-c).toNat

/-- Python `range(a, b, c)` over integers with a non-zero step (the engine
raises on a zero step before ever building a range): the arithmetic
progression `a, a+c, ...` strictly before `b` (after `b` descending). -/
def intRange (a b c : Int) : List Int :=
  if c = 0 then []
  else (List.range (intRangeLen a b c)).map (fun k : Nat => a + c * (k : Int))

/-- Ascending clamp of a slice bound into `[0, len]`
(`study_indexing.py` lines 89-96). -/
def clampPos (length v : Int) : Int :=
  if v < 0 then 0 else if v > length then length else v

/-- Descending clamp of a slice bound into `[-1, len-1]`
(`study_indexing.py` lines 100-107). -/
def clampNeg (length v : Int) : Int :=
  if v < -1 then -1 else if v ≥ length then length - 1 else v

/-- Defaulting / negative-offsetting of a slice start
(`study_indexing.py` lines 72-77). -/
def sliceStart (a0 : Option Int) (c length : Int) : Int :=
  match a0 with
  | none => if 0 < c then 0 else length - 1
  | some a => if a < 0 then a + length else a

/-- Defaulting / negative-offsetting of a slice stop
(`study_indexing.py` lines 79-84). -/
def sliceStop (b0 : Option Int) (c length : Int) : Int :=
  match b0 with
  | none => if 0 < c then length else -1
  | some b => if b < 0 then b + length else b

/-- Per-row normalization of a 3-part slice against the row length
(`study_indexing.py` lines 68-107): default the step to 1, default or
offset the start and stop, collapse an already-empty slice to `(0, 0)`,
then clamp into `[0, len]` (ascending) or `[-1, len-1]` (descending). -/
def slice3_normalize (a0 b0 c0 : Option Int) (length : Int) : Int × Int × Int :=
  let c : Int := c0.getD 1
  let a : Int := sliceStart a0 c length
  let b : Int := sliceStop b0 c length
  if 0 < c then
    (clampPos length (if b ≤ a then 0 else a), clampPos length (if b ≤ a then 0 else b), c)
  else
    (clampNeg length (if a ≤ b then 0 else a), clampNeg length (if a ≤ b then 0 else b), c)

/-- Positions selected by a slice term within one row of length `length`. -/
def slice3_rowPositions (a0 b0 c0 : Option Int) (length : Int) : List Int :=
  match slice3_normalize a0 b0 c0 length with
  | (a, b, c) => intRange a b c

/-- The `spread_advanced` helper (`study_indexing.py` lines 34-46): an
unset context passes through; a set context is replicated so each of a
row's produced positions inherits that row's context value; the `assert`
on matching lengths raises `AssertionError`. -/
def spread_advanced (starts stops : List Int) : Option (List Nat) → Except Err (Option (List Nat))
  | none => .ok none
  | some adv =>
    if starts.length = stops.length ∧ stops.length = adv.length then
      .ok (some (((starts.zip stops).zip adv).flatMap
        (fun p => List.replicate (p.1.2 - p.1.1).toNat p.2)))
    else .error .assertionError

/-- Index terms as they reach `getitem_next` after entry normalization:
integers, 3-part slices, and 1-D integer arrays. -/
inductive NTerm where
  | int (h : Int)
  | slice3 (a b c : Option Int)
  | arr (xs : List Int)
deriving DecidableEq, Repr

/-- Raw index terms accepted by `getitem_enter`: additionally 1-D boolean
masks. -/
inductive RawTerm where
  | int (h : Int)
  | slice3 (a b c : Option Int)
  | arr (xs : List Int)
  | mask (bs : List Bool)
deriving DecidableEq, Repr

/-- Index buffer built by `getitem_integer` (`study_indexing.py` lines
49-54): per row `j = starts[i] + head`, raising `ValueError` at the first
row where `j >= stops[i]` (reading past a shorter `stops` is a numpy
`IndexError`). -/
def getitem_integer_index (head : Int) : List Int → List Int → Except Err (List Int)
  | [], _ => .ok []
  | _ :: _, [] => .error .indexError
  | st :: starts, sp :: stops => do
    let j := st + head
    if j ≥ sp then .error .valueError
    else do
      let rest ← getitem_integer_index head starts stops
      .ok (j :: rest)

/-- Row loop of `getitem_slice3` (`study_indexing.py` lines 66-113): for
each row, normalize the slice against the row's own length and emit the
selected absolute positions; the scratch `starts[i]` and `stops[i]`
record the running offset `k` before and after the row. -/
def getitem_slice3_rows (a b c : Option Int) (k : Int) : List Int → List Int → Except Err (List Int × List Int × List Int)
  | [], _ => .ok ([], [], [])
  | _ :: _, [] => .error .indexError
  | st :: starts, sp :: stops => do
    let js := (slice3_rowPositions a b c (sp - st)).map (fun j => st + j)
    let (ns, ws, idx) ← getitem_slice3_rows a b c (k + js.length) starts stops
    .ok (k :: ns, (k + js.length) :: ws, js ++ idx)

/-- Normalization of a single (possibly negative) index entry by a row
length, as the engine performs it (`norm += length` when negative). -/
def pynorm (x length : Int) : Int := if x < 0 then x + length else x

/-- Row sweep of `getitem_intarray_none` for one row starting at `st` of
length `length` (`study_indexing.py` lines 129-137): normalize each term
entry by the row length, raising `IndexError` when out of range after
normalization. -/
def intarray_row (head : List Int) (st length : Int) : Except Err (List Int) :=
  match head with
  | [] => .ok []
  | x :: rest =>
    let norm := pynorm x length
    if norm < 0 ∨ norm ≥ length then .error .indexError
    else do
      let others ← intarray_row rest st length
      .ok ((st + norm) :: others)

/-- Index and context buffers built by `getitem_intarray_none`
(`study_indexing.py` lines 124-138): one full sweep of the term per row,
the context value of each produced position being the term position `j`
that produced it. -/
def getitem_intarray_none_index (head : List Int) : List Int → List Int → Except Err (List Int × List Nat)
  | [], _ => .ok ([], [])
  | _ :: _, [] => .error .indexError
  | st :: starts, sp :: stops => do
    let row ← intarray_row head st (sp - st)
    let (idx, adv) ← getitem_intarray_none_index head starts stops
    .ok (row ++ idx, List.range head.length ++ adv)

/-- Loop of `getitem_intarray_some` (`study_indexing.py` lines 147-157):
iterate over the advanced context with position counter `i`, writing into
`index` and `nextadvanced` scratch buffers prefilled with `999` at the
row-count size; `IndexError` when `advanced[i]` exceeds the term length
or the normalized entry is out of the row's range. -/
def getitem_intarray_some_loop (starts stops head : List Int) :
    Nat → List Nat → List Int → List Nat → Except Err (List Int × List Nat)
  | _, [], index, nextadvanced => .ok (index, nextadvanced)
  | i, a :: rest, index, nextadvanced => do
    let sp ← pyGet stops (i : Int)
    let st ← pyGet starts (i : Int)
    let length := sp - st
    match head.get? a with
    | none => .error .indexError
    | some x => do
      let normj := pynorm x length
      if normj < 0 ∨ normj ≥ length then .error .indexError
      else
        getitem_intarray_some_loop starts stops head (i+1) rest
          (index.set i (st + normj)) (nextadvanced.set i i)

/-- Terminal case `array[slices]` of `getitem_next` on a flat 1-D buffer
with terms remaining: numpy 1-D indexing by a single term (more than one
term against a 1-D array is a numpy `IndexError`).  With the index depth
at most the array rank this branch is reached only with an empty term
list; an integer term's 0-d result is modelled as a singleton buffer. -/
def npFlat (xs : List Int) : List NTerm → Except Err NDA
  | [] => .ok (.flat xs)
  | [.int h] => do .ok (.flat [← pyGet xs h])
  | [.slice3 a b c] =>
    if c = some 0 then .error .valueError
    else do
      .ok (.flat (← (slice3_rowPositions a b c xs.length).mapM (pyGet xs)))
  | [.arr idx] => do .ok (.flat (← idx.mapM (pyGet xs)))
  | _ => .error .indexError

/-- The recursive engine `getitem_next` (`study_indexing.py` lines
162-183) together with the per-term handlers it dispatches to
(`getitem_integer`, `getitem_slice3`, `getitem_intarray_none`,
`getitem_intarray_some`, lines 48-160): each level consumes one term
against a jagged array and recurses into the gathered content with the
remaining terms.  The slice handler's `index` scratch buffer is allocated
at `len(array.content)` ("too big, but okay"), so exceeding it raises
`IndexError`; a scratch `stops` longer than `starts` keeps its `999`
fill. -/
def getitem_next (array : NDA) (slices : List NTerm) (advanced : Option (List Nat)) : Except Err NDA :=
  match slices with
  | [] => .ok array
  | t :: tail =>
    match array with
    | .flat xs => npFlat xs (t :: tail)
    | .jag starts stops content =>
      match t, advanced with
      | .int h, advanced => do
        let index ← getitem_integer_index h starts stops
        let g ← content.gather index
        getitem_next g tail advanced
      | .slice3 a b c, advanced =>
        if c = some 0 then .error .valueError
        else do
          let (newstarts, written, index) ← getitem_slice3_rows a b c 0 starts stops
          let newstops := written ++ List.replicate (stops.length - starts.length) 999
          if index.length > content.len then .error .indexError
          else do
            let g ← content.gather index
            let sa ← spread_advanced newstarts newstops advanced
            let next ← getitem_next g tail sa
            .ok (.jag newstarts newstops next)
      | .arr head, none => do
        let (index, nextadvanced) ← getitem_intarray_none_index head starts stops
        let newstarts := (List.range starts.length).map (fun i => ((i * head.length : Nat) : Int))
        let newstops0 := (List.range starts.length).map (fun i => (((i+1) * head.length : Nat) : Int))
        let newstops := newstops0 ++ List.replicate (stops.length - starts.length) 999
        let g ← content.gather index
        let next ← getitem_next g tail (some nextadvanced)
        .ok (.jag newstarts newstops next)
      | .arr head, some advanced => do
        let (index, nextadvanced) ← getitem_intarray_some_loop starts stops head 0 advanced
          (List.replicate starts.length 999) (List.replicate starts.length 999)
        let g ← content.gather index
        getitem_next g tail (some nextadvanced)

/-- Result of `getitem_enter`: either a Python scalar (a dense result of
rank 0, produced by `fake[0]`) or an array. -/
inductive EnterRes where
  | scal (v : Int)
  | arr (a : NDA)
deriving DecidableEq, Repr

/-- Count of true entries of a boolean mask (`numpy.count_nonzero`). -/
def countTrue (bs : List Bool) : Nat := bs.countP (fun b => b)

/-- Positions of the true entries of a boolean mask (`numpy.nonzero`). -/
def truePositions (bs : List Bool) : List Int :=
  ((List.range bs.length).filter (fun i => bs.getD i false)).map (fun i : Nat => (i : Int))

/-- The broadcast length computed by `getitem_enter` (`study_indexing.py`
lines 189-195): the maximum over 1-D array terms, masks counting by their
true count. -/
def arraylen (slices : List RawTerm) : Nat :=
  slices.foldl (fun acc x =>
    match x with
    | .mask bs => max acc (countTrue bs)
    | .arr xs => max acc xs.length
    | _ => acc) 0

/-- Entry normalization of one term (`study_indexing.py` lines 197-206):
a mask becomes its true positions; a bare integer is broadcast when any
array-valued term is present; a length-1 integer array is broadcast. -/
def normalizeTerm (alen : Nat) : RawTerm → NTerm
  | .mask bs => .arr (truePositions bs)
  | .int h => if alen ≠ 0 then .arr (List.replicate alen h) else .int h
  | .arr xs => if xs.length = 1 then .arr (List.replicate alen (xs.headD 0)) else .arr xs
  | .slice3 a b c => .slice3 a b c

/-- The entry routine `getitem_enter` (`study_indexing.py` lines 185-212):
normalize the raw terms, wrap the target as a single synthetic outer row,
run the recursive engine with an unset context, and strip the synthetic
wrapper (`fake[0]` for a flat result, `fake.content[fake.starts[0]:
fake.stops[-1]]` otherwise). -/
def getitem_enter (array : NDA) (slices : List RawTerm) : Except Err EnterRes :=
  if slices.isEmpty then .ok (.arr array)
  else do
    let newslices := slices.map (normalizeTerm (arraylen slices))
    let fake ← getitem_next (.jag [0] [(array.len : Int)] array) newslices none
    match fake with
    | .flat xs => do .ok (.scal (← pyGet xs 0))
    | .jag s t c => do
      let lo ← pyGet s 0
      let hi ← pyGet t (-1)
      .ok (.arr (c.sliceRange lo hi))

/-- The post-run step of `getitem_enter` (`study_indexing.py` lines
209-212) in isolation: strip the synthetic outer row from the engine's
result (`fake[0]` for a flat result,
`fake.content[fake.starts[0]:fake.stops[-1]]` otherwise). -/
def enterStrip (fake : NDA) : Except Err EnterRes :=
  match fake with
  | .flat xs => do .ok (.scal (← pyGet xs 0))
  | .jag s t c => do
    let lo ← pyGet s 0
    let hi ← pyGet t (-1)
    .ok (.arr (c.sliceRange lo hi))

/-- Content chain of the ragged wrapping of a dense rectangular array
(`awkward.fromiter` of a numpy array): a structure of `count` rows whose
trailing dimensions are `ns`, over the row-major flat buffer `data`.
Each jagged level is regular: row `i` spans `[i*n, (i+1)*n)`. -/
def denseContent (count : Nat) : List Nat → List Int → NDA
  | [], data => .flat data
  | n :: rest, data =>
    .jag ((List.range count).map (fun i => ((i * n : Nat) : Int)))
      ((List.range count).map (fun i => (((i + 1) * n : Nat) : Int)))
      (denseContent (count * n) rest data)

/-- Ragged wrapping of a dense rectangular array of the given shape over
its row-major flat buffer. -/
def denseWrap (shape : List Nat) (data : List Int) : NDA :=
  match shape with
  | [] => .flat data
  | n :: rest => denseContent n rest data

/-- Nested-list views (`tolist()`) used to compare ragged results with
dense reference results element for element. -/
inductive Tree where
  | leaf (v : Int)
  | node (ts : List Tree)
deriving Repr

mutual

/-- Decidable equality of `tolist` views. -/
def Tree.decEq : (a b : Tree) → Decidable (a = b)
  | .leaf x, .leaf y =>
    if h : x = y then .isTrue (by rw [h]) else .isFalse (fun c => h (by injection c))
  | .leaf _, .node _ => .isFalse (fun c => by cases c)
  | .node _, .leaf _ => .isFalse (fun c => by cases c)
  | .node xs, .node ys =>
    match Tree.decEqList xs ys with
    | .isTrue h => .isTrue (by rw [h])
    | .isFalse h => .isFalse (fun c => h (by injection c))

/-- Decidable equality of lists of `tolist` views. -/
def Tree.decEqList : (a b : List Tree) → Decidable (a = b)
  | [], [] => .isTrue rfl
  | [], _ :: _ => .isFalse (fun c => by cases c)
  | _ :: _, [] => .isFalse (fun c => by cases c)
  | x :: xs, y :: ys =>
    match Tree.decEq x y, Tree.decEqList xs ys with
    | .isTrue h1, .isTrue h2 => .isTrue (by rw [h1, h2])
    | .isFalse h1, _ => .isFalse (fun c => h1 (by injection c))
    | _, .isFalse h2 => .isFalse (fun c => h2 (by injection c))

end

instance : DecidableEq Tree := Tree.decEq

/-- Per-row `tolist()` views of an engine array: a flat buffer lists its
elements; a jagged array's row `i` is `content[starts[i]:stops[i]]`. -/
def NDA.treeList : NDA → List Tree
  | .flat xs => xs.map .leaf
  | .jag s t c =>
    let ts := c.treeList
    (s.zip t).map (fun p => .node (pySlice ts p.1 p.2))

/-- Whole-array `tolist()` view of an engine array. -/
def NDA.toTree (a : NDA) : Tree := .node a.treeList

/-- Whole-result view of a `getitem_enter` result. -/
def EnterRes.toTree : EnterRes → Tree
  | .scal v => .leaf v
  | .arr a => a.toTree

/-- Nested-list view of a dense rectangular array of the given shape over
a row-major flat buffer. -/
def denseTree : List Nat → List Int → Tree
  | [], data => .leaf (data.headD 0)
  | n :: rest, data =>
    .node ((List.range n).map (fun i =>
      denseTree rest (segment data (i * rest.prod) rest.prod)))

/-- Shape rule as claim C8 states it, for comparison with the code's
`unionShape`: when every content has non-generic element type and all
contents share the same trailing shape (beyond the leading axis), the
shape is `tags.shape ++ trailing_shape`, otherwise `tags.shape`. -/
def claimShapeC8 (tagsShape : List Nat) : List NpArr → List Nat
  | [] => tagsShape
  | c :: rest =>
    if (c :: rest).all (fun x => ¬ x.dtype = .object) ∧ rest.all (fun x => x.shape.tail = c.shape.tail) then
      tagsShape ++ c.shape.tail
    else tagsShape

/-- Slice normalization as the spec states it (dense-array rules: default
the step to 1, default or offset the start and stop by the length, then
clamp into `[0, len]` ascending or `[-1, len-1]` descending), for
comparison with the code's `slice3_normalize`; the spec states no
collapsing of an already-empty slice. -/
def specSliceNormalize (a0 b0 c0 : Option Int) (length : Int) : Int × Int × Int :=
  let c : Int := c0.getD 1
  let a : Int := sliceStart a0 c length
  let b : Int := sliceStop b0 c length
  if 0 < c then
    (clampPos length a, clampPos length b, c)
  else
    (clampNeg length a, clampNeg length b, c)

/-- Positions selected by a slice in one row under the spec's stated
normalization rules. -/
def specSlicePositions (a0 b0 c0 : Option Int) (length : Int) : List Int :=
  match specSliceNormalize a0 b0 c0 length with
  | (a, b, c) => intRange a b c

/-!
### Dense advanced-indexing reference semantics

An independent model of dense rectangular-array indexing (numpy
semantics) for the term grammar of the tests: integers, slices, 1-D
boolean masks, and 1-D integer arrays, on arrays of arbitrary rank.
A result is a shape together with a row-major flat buffer; the flat
offset of a coordinate tuple is the sum of per-axis contributions
`position * stride`.  Advanced indexing follows numpy's rules: any array
or mask triggers it, integers then broadcast with the arrays, masks
count by their true positions, length-1 arrays broadcast, and the
broadcast dimension is placed at the advanced terms' own position when
they are adjacent and in front otherwise.
-/

/-- Per-axis selection: an advanced scalar (a bare integer in an
advanced-indexing request), an advanced 1-D integer array, or the
positions selected by a slice. -/
inductive AxSel where
  | advScalar (h : Int)
  | advArr (xs : List Int)
  | basicSlice (js : List Int)
deriving DecidableEq, Repr

/-- Whether a selection participates in the advanced broadcast. -/
def AxSel.isAdv : AxSel → Bool
  | .advScalar _ => true
  | .advArr _ => true
  | .basicSlice _ => false

/-- Selection of one axis of length `n` by a raw term: a zero slice step
is an error, and a boolean mask must have exactly the axis length. -/
def toAxSel (n : Nat) : RawTerm → Except Err AxSel
  | .int h => .ok (.advScalar h)
  | .slice3 a b c =>
    if c = some 0 then .error .valueError
    else .ok (.basicSlice (specSlicePositions a b c n))
  | .arr xs => .ok (.advArr xs)
  | .mask bs => if bs.length = n then .ok (.advArr (truePositions bs)) else .error .indexError

/-- Annotated axes of an index request: each indexed axis's selection,
its length, and its stride (the product of all later dimensions). -/
def annotateAxes : List Nat → List RawTerm → Except Err (List (AxSel × Nat × Nat))
  | _, [] => .ok []
  | [], _ :: _ => .error .indexError
  | n :: rest, t :: ts => do
    let sel ← toAxSel n t
    let tail ← annotateAxes rest ts
    .ok ((sel, n, rest.prod) :: tail)

/-- Numpy broadcasting of 1-D lengths: all lengths other than 1 must
agree; their common value (1 if none) is the broadcast length. -/
def bcastLen (lens : List Nat) : Except Err Nat :=
  match lens.filter (fun l => l ≠ 1) with
  | [] => .ok 1
  | l :: rest => if rest.all (fun x => x = l) then .ok l else .error .indexError

/-- Broadcast lengths contributed by the advanced selections. -/
def advLens (sels : List (AxSel × Nat × Nat)) : List Nat :=
  sels.filterMap (fun s => match s.1 with | .advArr xs => some xs.length | _ => none)

/-- Value of an advanced selection at broadcast position `k`, normalized
by the axis length (a length-1 array broadcasts its single entry). -/
def advValue (sel : AxSel) (n : Nat) (k : Nat) : Int :=
  match sel with
  | .advScalar h => pynorm h n
  | .advArr xs => pynorm (if xs.length = 1 then xs.getD 0 0 else xs.getD k 0) n
  | .basicSlice _ => 0

/-- Bounds validation of one axis selection, as numpy performs it before
producing any element. -/
def checkAxSel (sel : AxSel) (n : Nat) : Except Err Unit :=
  match sel with
  | .advScalar h => if 0 ≤ pynorm h n ∧ pynorm h n < (n : Int) then .ok () else .error .indexError
  | .advArr xs =>
    if xs.all (fun x => 0 ≤ pynorm x n ∧ pynorm x n < (n : Int)) then .ok () else .error .indexError
  | .basicSlice _ => .ok ()

/-- Row-major enumeration of flat offsets from per-axis contribution
lists: the sum of one contribution per axis, later axes varying
fastest. -/
def npOffsets : List (List Nat) → List Nat
  | [] => [0]
  | c :: rest => c.flatMap (fun v => (npOffsets rest).map (fun w => v + w))

/-- Full contributions of the trailing (unindexed) axes. -/
def fullContribs : List Nat → List (List Nat)
  | [] => []
  | n :: rest => ((List.range n).map (fun i => i * rest.prod)) :: fullContribs rest

/-- Contribution list of a slice selection on an axis of stride `s`. -/
def sliceContrib (js : List Int) (s : Nat) : List Nat := js.map (fun j => j.toNat * s)

/-- Contribution list of the (broadcast) advanced block: one offset per
broadcast position, summing every advanced axis's value times stride. -/
def advContrib (advAxes : List (AxSel × Nat × Nat)) (L : Nat) : List Nat :=
  (List.range L).map (fun k =>
    advAxes.foldl (fun acc s => acc + (advValue s.1 s.2.1 k).toNat * s.2.2) 0)

/-- Whether a list of positions is consecutive. -/
def consecutive : List Nat → Bool
  | [] => true
  | [_] => true
  | x :: y :: rest => (y = x + 1) && consecutive (y :: rest)

/-- Positions of the advanced selections among the indexed axes. -/
def advPositions (sels : List (AxSel × Nat × Nat)) : List Nat :=
  (sels.enum.filter (fun p => p.2.1.isAdv)).map (fun p => p.1)

/-- Output dimensions and per-axis contribution lists of an advanced
index request (trailing axes excluded): slices keep their place; the
broadcast dimension sits at the advanced block's own position when the
advanced selections are adjacent, in front otherwise. -/
def advAssemble (sels : List (AxSel × Nat × Nat)) (L : Nat) : List Nat × List (List Nat) :=
  let advAxes := sels.filter (fun s => s.1.isAdv)
  let pre := sels.takeWhile (fun s => ¬ s.1.isAdv)
  let post := (sels.dropWhile (fun s => ¬ s.1.isAdv)).filter (fun s => ¬ s.1.isAdv)
  if consecutive (advPositions sels) then
    (pre.map (fun s => match s.1 with | .basicSlice js => js.length | _ => 0)
       ++ [L]
       ++ post.map (fun s => match s.1 with | .basicSlice js => js.length | _ => 0),
     pre.map (fun s => match s.1 with | .basicSlice js => sliceContrib js s.2.2 | _ => [])
       ++ [advContrib advAxes L]
       ++ post.map (fun s => match s.1 with | .basicSlice js => sliceContrib js s.2.2 | _ => []))
  else
    ([L] ++ (sels.filter (fun s => ¬ s.1.isAdv)).map
              (fun s => match s.1 with | .basicSlice js => js.length | _ => 0),
     [advContrib advAxes L]
       ++ (sels.filter (fun s => ¬ s.1.isAdv)).map
            (fun s => match s.1 with | .basicSlice js => sliceContrib js s.2.2 | _ => []))

/-- Output dimensions and contribution lists of a basic (integer/slice)
request: integers drop their axis, slices keep theirs. -/
def basicAssemble (sels : List (AxSel × Nat × Nat)) : List Nat × List (List Nat) :=
  match sels with
  | [] => ([], [])
  | s :: rest =>
    let (dims, contribs) := basicAssemble rest
    match s.1 with
    | .advScalar h => (dims, [(pynorm h s.2.1).toNat * s.2.2] :: contribs)
    | .basicSlice js => (js.length :: dims, sliceContrib js s.2.2 :: contribs)
    | .advArr _ => (dims, [] :: contribs)

/-- Dense-array reference indexing (numpy semantics) for the claims'
term grammar: returns the result's shape and row-major flat buffer. -/
def npGetitem (shape : List Nat) (data : List Int) (terms : List RawTerm) :
    Except Err (List Nat × List Int) := do
  let sels ← annotateAxes shape terms
  let _ ← sels.mapM (fun s => checkAxSel s.1 s.2.1)
  let trailing := shape.drop terms.length
  if terms.any (fun t => match t with | .arr _ => true | .mask _ => true | _ => false) then do
    let L ← bcastLen (advLens sels)
    let (dims, contribs) := advAssemble sels L
    .ok (dims ++ trailing,
         (npOffsets (contribs ++ fullContribs trailing)).map (fun off => data.getD off 0))
  else
    let (dims, contribs) := basicAssemble sels
    .ok (dims ++ trailing,
         (npOffsets (contribs ++ fullContribs trailing)).map (fun off => data.getD off 0))

/-!
### Abstract engine states over a dense array

During a run of the recursive engine on the ragged wrapping of a dense
rectangular array, the jagged array at each level is, up to the gathers
performed so far, a list of "prefix rows" of the original array: row `i`
spans `[q[i] * n, (q[i]+1) * n)` of the regular content chain, where `q`
lists the flat prefix positions selected so far.  `mkState` builds that
NDA; `wrapNDA` rebuilds the regular jagged wrappers produced by slice
and outer integer-array terms.
-/

/-- Engine state at a recursion level: `q` prefix rows over the dims
`ds` still unconsumed, within a dense array flattened into `data` whose
already-consumed prefix has `N` positions.  With all dims consumed the
state is the gathered flat buffer itself. -/
def mkState (N : Nat) (ds : List Nat) (data : List Int) (q : List Nat) : NDA :=
  match ds with
  | [] => .flat (q.map (fun x => data.getD x 0))
  | n :: rest =>
    .jag (q.map (fun x => ((x * n : Nat) : Int)))
      (q.map (fun x => (((x + 1) * n : Nat) : Int)))
      (denseContent (N * n) rest data)

/-- Nested regular jagged wrappers: `R` rows at the outer level, each
spanning `m` rows of the next, for each multiplicity in `ws`. -/
def wrapNDA (R : Nat) : List Nat → NDA → NDA
  | [], inner => inner
  | m :: ws, inner =>
    .jag ((List.range R).map (fun i => ((i * m : Nat) : Int)))
      ((List.range R).map (fun i => (((i + 1) * m : Nat) : Int)))
      (wrapNDA (R * m) ws inner)

/-- Replication of an advanced context across a uniform per-row
multiplicity (what `spread_advanced` computes on regular rows). -/
def advSpread (adv : Option (List Nat)) (m : Nat) : Option (List Nat) :=
  adv.map (fun av => av.flatMap (List.replicate m))

/-- Number of integer-array terms of a normalized term list. -/
def arrCount (ts : List NTerm) : Nat :=
  ts.countP (fun t => match t with | .arr _ => true | _ => false)

/-- Validity of a normalized term list against the dims it will consume:
integer terms lie in `[0, n)` (the engine performs no negative
normalization for them), slice steps are non-zero, and integer-array
terms all carry the broadcast length `L`, have in-range entries after
per-row normalization, and — when they are the first advanced term — a
broadcast length within their axis (keeping the slice handler's scratch
buffer, allocated at the content length, large enough). -/
def tvalid (L : Nat) : Bool → List NTerm → List Nat → Bool
  | _, [], _ => true
  | _, _ :: _, [] => false
  | advSet, .int h :: ts, n :: ds =>
    decide (0 ≤ h ∧ h < (n : Int)) && tvalid L advSet ts ds
  | advSet, .slice3 _ _ c :: ts, n :: ds =>
    decide (¬ c = some 0) && tvalid L advSet ts ds
  | advSet, .arr xs :: ts, n :: ds =>
    decide (xs.length = L) && (advSet || decide (L ≤ n)) &&
      xs.all (fun x => decide (0 ≤ pynorm x (n : Int) ∧ pynorm x (n : Int) < (n : Int))) &&
      tvalid L true ts ds

/-- Closed form of the flat offsets (in units of the trailing, unindexed
dims) selected within one row by a term list, given the row's advanced
context value: integers shift, slices fan out over their selected
positions, an integer array with the context unset fans out over its
entries while giving each branch its entry position as context, and an
integer array with the context set picks the single entry the context
designates. -/
def rowOffsets : List Nat → List NTerm → Option Nat → List Nat
  | _, [], _ => [0]
  | [], _ :: _, _ => []
  | n :: rest, t :: ts, k =>
    match t, k with
    | .int h, k =>
      (rowOffsets rest ts k).map (fun w => h.toNat * (rest.take ts.length).prod + w)
    | .slice3 a b c, k =>
      (slice3_rowPositions a b c (n : Int)).flatMap (fun j =>
        (rowOffsets rest ts k).map (fun w => j.toNat * (rest.take ts.length).prod + w))
    | .arr xs, none =>
      (List.range xs.length).flatMap (fun j =>
        (rowOffsets rest ts (some j)).map (fun w =>
          (pynorm (xs.getD j 0) (n : Int)).toNat * (rest.take ts.length).prod + w))
    | .arr xs, some c =>
      (rowOffsets rest ts (some c)).map (fun w =>
        (pynorm (xs.getD c 0) (n : Int)).toNat * (rest.take ts.length).prod + w)

/-- Dimensions of the jagged wrappers the engine emits for a term list:
slices contribute their selected count, the first integer-array term
contributes the broadcast length, later ones none, integers none. -/
def emitDims : List Nat → List NTerm → Bool → List Nat
  | _, [], _ => []
  | [], _ :: _, _ => []
  | n :: rest, t :: ts, advSet =>
    match t with
    | .int _ => emitDims rest ts advSet
    | .slice3 a b c => (slice3_rowPositions a b c (n : Int)).length :: emitDims rest ts advSet
    | .arr xs => if advSet then emitDims rest ts true else xs.length :: emitDims rest ts true

/-- Rows of an engine state paired with their advanced-context values
(`none` throughout when the context is unset). -/
def ctxPairs (q : List Nat) : Option (List Nat) → List (Nat × Option Nat)
  | none => q.map (fun x => (x, none))
  | some ctx => q.zip (ctx.map some)

/-- Validity of a raw index expression against the dims it will consume,
for broadcast length `L`: integers lie in `[0, n)`; slice steps are
non-zero; integer arrays have length `1` (broadcast) or `L`, with entries
in range after per-row normalization; boolean masks have exactly the axis
length, with `L` true positions; and the first advanced term's axis is at
least `L` wide (bare integers become advanced terms when `L ≠ 0`). -/
def rawValid (L : Nat) : Bool → List RawTerm → List Nat → Bool
  | _, [], _ => true
  | _, _ :: _, [] => false
  | advSet, .int h :: ts, n :: ds =>
    decide (0 ≤ h ∧ h < (n : Int)) && (decide (L = 0) || advSet || decide (L ≤ n)) &&
      rawValid L (advSet || decide (¬ L = 0)) ts ds
  | advSet, .slice3 _ _ c :: ts, n :: ds =>
    decide (¬ c = some 0) && rawValid L advSet ts ds
  | advSet, .arr xs :: ts, n :: ds =>
    decide (xs.length = 1 ∨ xs.length = L) && (advSet || decide (L ≤ n)) &&
      xs.all (fun x => decide (0 ≤ pynorm x (n : Int) ∧ pynorm x (n : Int) < (n : Int))) &&
      rawValid L true ts ds
  | advSet, .mask bs :: ts, n :: ds =>
    decide (bs.length = n) && decide (countTrue bs = L) && (advSet || decide (L ≤ n)) &&
      rawValid L true ts ds

/-! ### Helper lemmas -/

/-- Decidable equality of `Except` results, used to settle closed claims
by evaluation. -/
def exceptDecEq {ε α : Type} [DecidableEq ε] [DecidableEq α] : (a b : Except ε α) → Decidable (a = b)
  | .error e, .error f =>
    if h : e = f then .isTrue (by rw [h]) else .isFalse (fun c => h (by injection c))
  | .error _, .ok _ => .isFalse (fun c => by cases c)
  | .ok _, .error _ => .isFalse (fun c => by cases c)
  | .ok a, .ok b =>
    if h : a = b then .isTrue (by rw [h]) else .isFalse (fun c => h (by injection c))

instance {ε α : Type} [DecidableEq ε] [DecidableEq α] : DecidableEq (Except ε α) := exceptDecEq

theorem init_le_foldl_max (l : List Int) : ∀ a : Int, a ≤ l.foldl max a := by
  induction l with
  | nil => intro a; simp
  | cons b t ih => intro a; exact le_trans (le_max_left a b) (ih (max a b))

theorem mem_le_foldl_max (l : List Int) : ∀ (a x : Int), x ∈ l → x ≤ l.foldl max a := by
  induction l with
  | nil => intro a x hx; cases hx
  | cons b t ih =>
    intro a x hx
    rcases List.mem_cons.mp hx with rfl | hx
    · exact le_trans (le_max_right a x) (init_le_foldl_max t (max a x))
    · exact ih (max a b) x hx

theorem npMax_ge {xs : List Int} {x : Int} (hx : x ∈ xs) :
    ∃ m, npMax xs = .ok m ∧ x ≤ m := by
  match xs, hx with
  | a :: rest, hx =>
    refine ⟨rest.foldl max a, by simp [npMax, List.max?], ?_⟩
    rcases List.mem_cons.mp hx with rfl | hx
    · exact init_le_foldl_max rest x
    · exact mem_le_foldl_max rest a x hx

/-! ### Claim C2: the index-range check of `UnionArray._valid` -/

/-- Claim C2 states that `_valid` checks `index[i] < len(contents[tags[i]])`
for every position.  The code instead compares the maximum index against
the NUMBER of content arrays: on `tags = [0]`, `index = [2]`, and four
contents of length 2, position 0 violates the claimed check
(`index[0] = 2 >= len(contents[0]) = 2`) yet validation succeeds. -/
theorem C2_valid_skips_index_range_check :
    UnionArray.valid ⟨[0], [2], [.mk1 [1, 2], .mk1 [3, 4], .mk1 [5, 6], .mk1 [7, 8]]⟩ = .ok ()
    ∧ ¬ ((2 : Int) < ((NpArr.mk1 [1, 2]).len : Int)) := by decide

/-! ### Claim C6: `fromtags` round-trip through `__getitem__` -/

/-- Claim C6 states that `fromtags` followed by reading every position
returns `contents[tags[i]][index[i]]`.  On `tags = [0, 0]` over the single
content `[10, 20]`, `fromtags` derives `index = [0, 1]` — a perfectly
consistent union whose position 0 is `10` — yet reading any position
raises, because `_valid` compares the maximum index (1) against the
number of content arrays (1) instead of the content length (2). -/
theorem C6_fromtags_read_raises :
    UnionArray.fromtags [0, 0] [.mk1 [10, 20]] = .ok ⟨[0, 0], [0, 1], [.mk1 [10, 20]]⟩
    ∧ UnionArray.getInt ⟨[0, 0], [0, 1], [.mk1 [10, 20]]⟩ 0 = .error .valueError := by decide

/-! ### Claim C7: deferred validation of an out-of-range tag -/

/-- Claim C7: constructing a union whose tags pass the eager setter checks
but reference an out-of-range content index succeeds, while validation
and every subsequent indexed read raise. -/
theorem C7_deferred_validation (tags index : List Int) (contents : List NpArr)
    (ht : ∀ x ∈ tags, ¬ x < 0) (hi : ∀ x ∈ index, ¬ x < 0) (hc : ¬ contents.length = 0)
    (hbad : ∃ t ∈ tags, (contents.length : Int) ≤ t) :
    unionMake tags index contents = .ok ⟨tags, index, contents⟩
    ∧ UnionArray.valid ⟨tags, index, contents⟩ = .error .valueError
    ∧ ∀ i : Int, UnionArray.getInt ⟨tags, index, contents⟩ i = .error .valueError := by
  obtain ⟨t, htm, hge⟩ := hbad
  obtain ⟨m, hm, hle⟩ := npMax_ge htm
  have hvalid : UnionArray.valid ⟨tags, index, contents⟩ = .error .valueError := by
    simp only [UnionArray.valid, hm]
    simp only [Except.bind, bind]
    rw [if_pos (by omega)]
  refine ⟨?_, hvalid, ?_⟩
  · simp only [unionMake, checkTags, checkIndex, checkContents]
    rw [if_neg (by simpa using ht), if_neg (by simpa using hi), if_neg hc]
    rfl
  · intro i
    simp only [UnionArray.getInt, hvalid]
    rfl

/-- Witness for C7 at `tags = [0, 1]`, `index = [0, 0]`, one content. -/
theorem C7_deferred_validation_w :
    unionMake [0, 1] [0, 0] [.mk1 [5]] = .ok ⟨[0, 1], [0, 0], [.mk1 [5]]⟩
    ∧ UnionArray.valid ⟨[0, 1], [0, 0], [.mk1 [5]]⟩ = .error .valueError
    ∧ UnionArray.getInt ⟨[0, 1], [0, 0], [.mk1 [5]]⟩ 0 = .error .valueError := by
  obtain ⟨h1, h2, h3⟩ := C7_deferred_validation [0, 1] [0, 0] [.mk1 [5]]
    (by decide) (by decide) (by decide) ⟨1, by decide, by decide⟩
  exact ⟨h1, h2, h3 0⟩

/-! ### Claim C8: the shape of a `UnionArray` -/

/-- Counterexample to claim C8: with one content of full shape `[3]` and
`int64` dtype and `tags.shape = [2]`, the claimed rule (trailing shapes
beyond the leading axis) yields `[2]`, but the code compares and appends
contents' FULL shapes, yielding `[2, 3]`. -/
theorem C8_shape_counterexample :
    claimShapeC8 [2] [⟨[3], .int64, [1, 2, 3]⟩] = [2]
    ∧ unionShape [2] [⟨[3], .int64, [1, 2, 3]⟩] = [2, 3] := by decide

/-- Amended claim C8: the union's shape is `tags.shape ++ contents[0].shape`
exactly when the promoted dtype is not the generic object type and every
content has the same FULL shape as the first (leading axis included);
otherwise it is `tags.shape`. -/
theorem C8_shape_amended (ts : List Nat) (c : NpArr) (rest : List NpArr) :
    unionShape ts (c :: rest) =
      if ¬ unionDtype ((c :: rest).map NpArr.dtype) = .object ∧ rest.all (fun x => x.shape = c.shape) then
        ts ++ c.shape
      else ts := by
  simp only [unionShape]
  by_cases h1 : unionDtype ((c :: rest).map NpArr.dtype) = .object
  · rw [if_pos (Or.inl h1), if_neg (fun hcon => hcon.1 h1)]
  · by_cases h2 : rest.all (fun x => x.shape = c.shape)
    · rw [if_neg (fun hor => hor.elim h1 (fun hn => hn h2)), if_pos ⟨h1, h2⟩]
    · rw [if_pos (Or.inr h2), if_neg (fun hcon => h2 hcon.2)]

/-! ### Claim C9: negative single-position indices on a valid union -/

/-- Claim C9: on a container that validates, a negative integer read in
`[-L, 0)` is normalized by adding the container length, and an integer
outside `[-L, L)` raises `IndexError`. -/
theorem C9_negative_index_read (u : UnionArray) (i : Int)
    (hv : u.valid = .ok ()) :
    ((-(u.tags.length : Int) ≤ i ∧ i < 0) → u.getInt i = u.getInt (i + u.tags.length))
    ∧ ((i < -(u.tags.length : Int) ∨ (u.tags.length : Int) ≤ i) → u.getInt i = .error .indexError) := by
  constructor
  · rintro ⟨h1, h2⟩
    simp only [UnionArray.getInt, hv]
    rw [if_pos h2, if_neg (by omega : ¬ i + (u.tags.length : Int) < 0)]
  · intro hout
    simp only [UnionArray.getInt, hv]
    simp only [Except.bind, bind]
    rcases hout with hout | hout
    · rw [if_pos (show i < 0 by omega),
        if_neg (show ¬ (0 ≤ i + (u.tags.length : Int) ∧ i + (u.tags.length : Int) < (u.tags.length : Int)) by omega)]
    · rw [if_neg (show ¬ i < 0 by omega),
        if_neg (show ¬ (0 ≤ i ∧ i < (u.tags.length : Int)) by omega)]

/-- Witness for C9 on the spec's concrete scenario union. -/
theorem C9_negative_index_read_w :
    UnionArray.getInt ⟨[0, 1, 0], [0, 0, 1], [.mk1 [10, 20], .mk1 [99]]⟩ (-1)
      = UnionArray.getInt ⟨[0, 1, 0], [0, 0, 1], [.mk1 [10, 20], .mk1 [99]]⟩ 2
    ∧ UnionArray.getInt ⟨[0, 1, 0], [0, 0, 1], [.mk1 [10, 20], .mk1 [99]]⟩ 5
      = .error .indexError := by
  have h := C9_negative_index_read ⟨[0, 1, 0], [0, 0, 1], [.mk1 [10, 20], .mk1 [99]]⟩ (-1) (by decide)
  have h5 := C9_negative_index_read ⟨[0, 1, 0], [0, 0, 1], [.mk1 [10, 20], .mk1 [99]]⟩ 5 (by decide)
  exact ⟨by simpa using h.1 (by constructor <;> decide), h5.2 (by right; decide)⟩

/-! ### Claims C4 and C10: integer terms against a ragged container -/

theorem getitem_integer_index_err (h : Int) (starts stops : List Int)
    (hlen : starts.length = stops.length)
    (hbad : ∃ p ∈ starts.zip stops, p.2 ≤ p.1 + h) :
    getitem_integer_index h starts stops = .error .valueError := by
  induction starts generalizing stops with
  | nil => obtain ⟨p, hp, _⟩ := hbad; simp at hp
  | cons st starts ih =>
    match stops with
    | [] => simp at hlen
    | sp :: stops =>
      simp only [getitem_integer_index]
      by_cases hb : st + h ≥ sp
      · rw [if_pos hb]
      · rw [if_neg hb]
        obtain ⟨p, hp, hple⟩ := hbad
        rcases List.mem_cons.mp (by simpa using hp) with rfl | hp
        · omega
        · rw [ih stops (by simpa using hlen) ⟨p, hp, hple⟩]; rfl

theorem getitem_integer_index_ok (h : Int) (starts stops : List Int)
    (hlen : starts.length = stops.length)
    (hok : ∀ p ∈ starts.zip stops, p.1 + h < p.2) :
    getitem_integer_index h starts stops = .ok (starts.map (fun s => s + h)) := by
  induction starts generalizing stops with
  | nil => simp [getitem_integer_index]
  | cons st starts ih =>
    match stops with
    | [] => simp at hlen
    | sp :: stops =>
      have h0 : st + h < sp := hok (st, sp) (by simp)
      simp only [getitem_integer_index]
      rw [if_neg (by omega)]
      rw [ih stops (by simpa using hlen) (fun p hp => hok p (by simp [hp]))]
      rfl

/-- Counterexample to claim C4: the integer-term bounds failure is a
`ValueError`, not an `IndexError`-class error.  On the spec's own
scenario (`starts = [0, 2, 2]`, `stops = [2, 2, 5]`, integer term 10) the
engine raises `ValueError`. -/
theorem C4_integer_error_class :
    getitem_next (.jag [0, 2, 2] [2, 2, 5] (.flat [0, 1, 2, 3, 4])) [.int 10] none
      = .error .valueError
    ∧ ¬ (getitem_next (.jag [0, 2, 2] [2, 2, 5] (.flat [0, 1, 2, 3, 4])) [.int 10] none
      = .error .indexError) := by
  have h1 : getitem_next (.jag [0, 2, 2] [2, 2, 5] (.flat [0, 1, 2, 3, 4])) [.int 10] none
      = .error .valueError := rfl
  exact ⟨h1, fun hcon => by rw [h1] at hcon; simp at hcon⟩

/-- Amended claim C4: for every ragged container and integer term `h`, the
engine computes `starts[i] + h` per row and, if some row has
`starts[i] + h >= stops[i]`, the whole operation fails with a
`ValueError`-class error at the first such row (no partial result). -/
theorem C4_integer_bounds_failure (starts stops : List Int) (content : NDA) (h : Int)
    (tail : List NTerm) (adv : Option (List Nat))
    (hlen : starts.length = stops.length)
    (hbad : ∃ p ∈ starts.zip stops, p.2 ≤ p.1 + h) :
    getitem_next (.jag starts stops content) (.int h :: tail) adv = .error .valueError := by
  simp only [getitem_next, getitem_integer_index_err h starts stops hlen hbad]
  rfl

/-- Witness for the amended C4 at the spec's concrete scenario. -/
theorem C4_integer_bounds_failure_w :
    getitem_next (.jag [0, 2, 2] [2, 2, 5] (.flat [0, 1, 2, 3, 4])) [.int 10] none
      = .error .valueError :=
  C4_integer_bounds_failure [0, 2, 2] [2, 2, 5] (.flat [0, 1, 2, 3, 4]) 10 [] none
    (by decide) ⟨(0, 2), by decide, by decide⟩

/-- Claim C10: a negative integer term is applied with no per-row
normalization and no lower-bound check: whenever `starts[i] + h <
stops[i]` for every row, the engine simply gathers the buffer positions
`starts[i] + h` (numpy gathering wraps a negative absolute position to
the end of the buffer).  Concretely, over rows `[0,2)` and `[2,4)` of
`[10,20,30,40]`, the term `-1` yields `[40, 20]` — buffer wrap-around for
row 0 and a read inside the preceding row for row 1 — not each row's last
element `[20, 40]`. -/
theorem C10_negative_integer_no_normalization (starts stops : List Int) (content : NDA)
    (h : Int) (adv : Option (List Nat))
    (hneg : h < 0) (hlen : starts.length = stops.length)
    (hok : ∀ p ∈ starts.zip stops, p.1 + h < p.2) :
    getitem_next (.jag starts stops content) [.int h] adv
      = content.gather (starts.map (fun s => s + h))
    ∧ getitem_next (.jag [0, 2] [2, 4] (.flat [10, 20, 30, 40])) [.int (-1)] none
      = .ok (.flat [40, 20]) := by
  constructor
  · simp only [getitem_next, getitem_integer_index_ok h starts stops hlen hok]
    simp only [Except.bind, bind]
    cases content.gather (starts.map (fun s => s + h)) with
    | error e => rfl
    | ok g => simp [getitem_next]
  · rfl

/-- Witness for C10 on a concrete two-row ragged container. -/
theorem C10_negative_integer_no_normalization_w :
    getitem_next (.jag [0, 2] [2, 4] (.flat [10, 20, 30, 40])) [.int (-1)] none
      = (NDA.flat [10, 20, 30, 40]).gather ([0, 2].map (fun s => s + (-1))) :=
  (C10_negative_integer_no_normalization [0, 2] [2, 4] (.flat [10, 20, 30, 40]) (-1) none
    (by decide) (by decide) (by decide)).1

/-! ### Claim C5: per-row slice normalization -/

theorem intRange_zero (a b : Int) : intRange a b 0 = [] := by
  simp [intRange]

theorem intRange_nil_of_le {a b c : Int} (hc : 0 < c) (hba : b ≤ a) : intRange a b c = [] := by
  have hlen : intRangeLen a b c = 0 := by
    simp only [intRangeLen, if_pos hc]
    have h1 : (b - a).toNat = 0 := by omega
    rw [h1]
    exact Nat.div_eq_of_lt (by omega)
  simp [intRange, hlen, (by omega : ¬ c = 0)]

theorem intRange_nil_of_ge {a b c : Int} (hc : c < 0) (hab : a ≤ b) : intRange a b c = [] := by
  have hlen : intRangeLen a b c = 0 := by
    simp only [intRangeLen, if_neg (by omega : ¬ 0 < c)]
    have h1 : (a - b).toNat = 0 := by omega
    rw [h1]
    exact Nat.div_eq_of_lt (by omega)
  simp [intRange, hlen, (by omega : ¬ c = 0)]

theorem intRange_nil_of_nonpos {a b c : Int} (hc : c ≤ 0) (hab : a ≤ b) : intRange a b c = [] := by
  rcases lt_or_eq_of_le hc with hlt | rfl
  · exact intRange_nil_of_ge hlt hab
  · exact intRange_zero a b

theorem intRangeLen_mul_lt_pos {a b c : Int} (hc : 0 < c) {k : Nat} (hk : k < intRangeLen a b c) :
    (k : Int) * c < b - a := by
  simp only [intRangeLen, if_pos hc] at hk
  have hct : 0 < c.toNat := by omega
  have h1 : (k + 1) * c.toNat ≤ (b - a).toNat + (c.toNat - 1) :=
    (Nat.le_div_iff_mul_le hct).mp hk
  rw [Nat.succ_mul] at h1
  have h2 : k * c.toNat < (b - a).toNat := by omega
  have e1 : ((k * c.toNat : Nat) : Int) = (k : Int) * c := by
    push_cast [Int.toNat_of_nonneg hc.le]
    ring
  have e2 : ((k * c.toNat : Nat) : Int) < (((b - a).toNat : Nat) : Int) := by exact_mod_cast h2
  omega

theorem intRangeLen_mul_lt_neg {a b c : Int} (hc : c < 0) {k : Nat} (hk : k < intRangeLen a b c) :
    (k : Int) * (-c) < a - b := by
  simp only [intRangeLen, if_neg (by omega : ¬ 0 < c)] at hk
  have hct : 0 < (-c).toNat := by omega
  have h1 : (k + 1) * (-c).toNat ≤ (a - b).toNat + ((-c).toNat - 1) :=
    (Nat.le_div_iff_mul_le hct).mp hk
  rw [Nat.succ_mul] at h1
  have h2 : k * (-c).toNat < (a - b).toNat := by omega
  have e1 : ((k * (-c).toNat : Nat) : Int) = (k : Int) * (-c) := by
    push_cast [Int.toNat_of_nonneg (by omega : (0:Int) ≤ -c)]
    ring
  have e2 : ((k * (-c).toNat : Nat) : Int) < (((a - b).toNat : Nat) : Int) := by exact_mod_cast h2
  omega

theorem mem_intRange_pos {a b c x : Int} (hc : 0 < c) (hx : x ∈ intRange a b c) :
    a ≤ x ∧ x < b := by
  rw [intRange, if_neg (by omega : ¬ c = 0)] at hx
  obtain ⟨k, hk, rfl⟩ := List.mem_map.mp hx
  have hk' : k < intRangeLen a b c := List.mem_range.mp hk
  have h1 := intRangeLen_mul_lt_pos hc hk'
  have h0 : 0 ≤ c * (k : Int) := mul_nonneg hc.le (Int.natCast_nonneg k)
  have e : (k : Int) * c = c * (k : Int) := mul_comm _ _
  omega

theorem mem_intRange_neg {a b c x : Int} (hc : c < 0) (hx : x ∈ intRange a b c) :
    b < x ∧ x ≤ a := by
  rw [intRange, if_neg (by omega : ¬ c = 0)] at hx
  obtain ⟨k, hk, rfl⟩ := List.mem_map.mp hx
  have hk' : k < intRangeLen a b c := List.mem_range.mp hk
  have h1 := intRangeLen_mul_lt_neg hc hk'
  have h0 : c * (k : Int) ≤ 0 := mul_nonpos_of_nonpos_of_nonneg hc.le (Int.natCast_nonneg k)
  have e : (k : Int) * (-c) = -(c * (k : Int)) := by ring
  omega

theorem clampPos_bounds (L v : Int) (hL : 0 ≤ L) : 0 ≤ clampPos L v ∧ clampPos L v ≤ L := by
  unfold clampPos; split_ifs <;> omega

theorem clampNeg_bounds (L v : Int) (hL : 0 ≤ L) : -1 ≤ clampNeg L v ∧ clampNeg L v ≤ L - 1 := by
  unfold clampNeg; split_ifs <;> omega

theorem clampPos_mono (L u v : Int) (hL : 0 ≤ L) (h : u ≤ v) : clampPos L u ≤ clampPos L v := by
  unfold clampPos; split_ifs <;> omega

theorem clampNeg_mono (L u v : Int) (hL : 0 ≤ L) (h : u ≤ v) : clampNeg L u ≤ clampNeg L v := by
  unfold clampNeg; split_ifs <;> omega

theorem slice3_rowPositions_eq (a0 b0 c0 : Option Int) (L : Int) :
    slice3_rowPositions a0 b0 c0 L
      = intRange (slice3_normalize a0 b0 c0 L).1 (slice3_normalize a0 b0 c0 L).2.1
          (slice3_normalize a0 b0 c0 L).2.2 := by
  unfold slice3_rowPositions
  rcases h : slice3_normalize a0 b0 c0 L with ⟨a, b, c⟩
  rfl

theorem specSlicePositions_eq (a0 b0 c0 : Option Int) (L : Int) :
    specSlicePositions a0 b0 c0 L
      = intRange (specSliceNormalize a0 b0 c0 L).1 (specSliceNormalize a0 b0 c0 L).2.1
          (specSliceNormalize a0 b0 c0 L).2.2 := by
  unfold specSlicePositions
  rcases h : specSliceNormalize a0 b0 c0 L with ⟨a, b, c⟩
  rfl

/-- Claim C5: the engine's per-row slice handling follows dense-array
normalization: a zero step raises an error before any row is processed;
for every non-negative row length, the positions the engine's
normalization selects are exactly those of the spec's stated
normalization rules (defaults, negative offsets, clamping — the engine's
extra collapsing of an already-empty slice to `(0, 0)` selects the same,
empty, set); and every selected position is within `[0, len)`, so
out-of-range bounds clip silently and never raise. -/
theorem C5_slice_normalization (starts stops : List Int) (content : NDA)
    (a0 b0 c0 : Option Int) (tail : List NTerm) (adv : Option (List Nat)) (L j : Int) :
    (getitem_next (.jag starts stops content) (.slice3 a0 b0 (some 0) :: tail) adv
      = .error .valueError)
    ∧ (0 ≤ L → slice3_rowPositions a0 b0 c0 L = specSlicePositions a0 b0 c0 L)
    ∧ (0 ≤ L → j ∈ slice3_rowPositions a0 b0 c0 L → 0 ≤ j ∧ j < L) := by
  refine ⟨by simp [getitem_next], fun hL => ?_, fun hL hj => ?_⟩
  · rw [slice3_rowPositions_eq, specSlicePositions_eq]
    simp only [slice3_normalize, specSliceNormalize]
    by_cases hs : 0 < c0.getD 1
    · rw [if_pos hs, if_pos hs]
      dsimp only
      by_cases hba : sliceStop b0 (c0.getD 1) L ≤ sliceStart a0 (c0.getD 1) L
      · rw [if_pos hba, if_pos hba]
        exact Eq.trans (intRange_nil_of_le hs le_rfl)
          (intRange_nil_of_le hs (clampPos_mono L _ _ hL hba)).symm
      · rw [if_neg hba, if_neg hba]
    · rw [if_neg hs, if_neg hs]
      dsimp only
      by_cases hab : sliceStart a0 (c0.getD 1) L ≤ sliceStop b0 (c0.getD 1) L
      · rw [if_pos hab, if_pos hab]
        exact Eq.trans (intRange_nil_of_nonpos (by omega) le_rfl)
          (intRange_nil_of_nonpos (by omega) (clampNeg_mono L _ _ hL hab)).symm
      · rw [if_neg hab, if_neg hab]
  · rw [slice3_rowPositions_eq] at hj
    simp only [slice3_normalize] at hj
    by_cases hs : 0 < c0.getD 1
    · rw [if_pos hs] at hj
      dsimp only at hj
      have hb := mem_intRange_pos hs hj
      have hx : 0 ≤ j := le_trans (clampPos_bounds L _ hL).1 hb.1
      have hy : j < L := lt_of_lt_of_le hb.2 (clampPos_bounds L _ hL).2
      exact ⟨hx, hy⟩
    · rw [if_neg hs] at hj
      dsimp only at hj
      by_cases hz : c0.getD 1 = 0
      · rw [hz, intRange_zero] at hj
        cases hj
      · have hb := mem_intRange_neg (by omega) hj
        have hx : (-1 : Int) < j := lt_of_le_of_lt (clampNeg_bounds L _ hL).1 hb.1
        have hy : j ≤ L - 1 := le_trans hb.2 (clampNeg_bounds L _ hL).2
        omega

/-! ### Claim C3: integer-array terms, outer and vectorized -/

theorem get?_toNat_nat (i : Nat) : ((i : Int)).toNat = i := by omega

theorem pyGet_nat {α : Type} (xs : List α) (i : Nat) (d : α) (h : i < xs.length) :
    pyGet xs (i : Int) = .ok (xs.getD i d) := by
  simp only [pyGet]
  rw [if_neg (by omega : ¬ (i : Int) < 0), get?_toNat_nat,
    List.get?_eq_getElem?, List.getElem?_eq_getElem h]
  show (if (0:Int) ≤ (i:Int) then Except.ok xs[i] else Except.error Err.indexError)
    = Except.ok (xs.getD i d)
  rw [if_pos (by omega : (0:Int) ≤ (i:Int)), List.getD_eq_getElem xs d h]

theorem get?_eq_getD {α : Type} (l : List α) (i : Nat) (d : α) (h : i < l.length) :
    l.get? i = some (l.getD i d) := by
  rw [List.get?_eq_getElem?, List.getElem?_eq_getElem h, List.getD_eq_getElem l d h]

theorem take_succ_set {α : Type} (l : List α) (i : Nat) (v : α) (h : i < l.length) :
    (l.set i v).take (i + 1) = l.take i ++ [v] := by
  induction l generalizing i with
  | nil => simp at h
  | cons x t ih =>
    cases i with
    | zero => simp
    | succ n => simp only [List.set, List.take, List.cons_append]
                rw [ih n (by simpa using h)]

theorem drop_set_of_lt' {α : Type} (l : List α) (i j : Nat) (v : α) (h : i < j) :
    (l.set i v).drop j = l.drop j := by
  induction l generalizing i j with
  | nil => simp
  | cons x t ih =>
    cases i with
    | zero =>
      match j, h with
      | m + 1, _ => simp
    | succ n =>
      match j, h with
      | m + 1, h => simp only [List.set, List.drop]
                    exact ih n m (by omega)

theorem intarray_row_ok (head : List Int) (st L : Int)
    (h : ∀ x ∈ head, 0 ≤ pynorm x L ∧ pynorm x L < L) :
    intarray_row head st L = .ok (head.map (fun x => st + pynorm x L)) := by
  induction head with
  | nil => rfl
  | cons x t ih =>
    have hx := h x (by simp)
    simp only [intarray_row]
    rw [if_neg (by omega)]
    rw [ih (fun y hy => h y (by simp [hy]))]
    rfl

theorem getitem_intarray_none_index_ok (head starts stops : List Int)
    (hlen : starts.length = stops.length)
    (hok : ∀ p ∈ starts.zip stops, ∀ x ∈ head,
        0 ≤ pynorm x (p.2 - p.1) ∧ pynorm x (p.2 - p.1) < p.2 - p.1) :
    getitem_intarray_none_index head starts stops
      = .ok ((starts.zip stops).flatMap (fun p => head.map (fun x => p.1 + pynorm x (p.2 - p.1))),
             (starts.zip stops).flatMap (fun _ => List.range head.length)) := by
  induction starts generalizing stops with
  | nil => match stops with
    | [] => rfl
    | _ :: _ => simp at hlen
  | cons st starts ih =>
    match stops with
    | [] => simp at hlen
    | sp :: stops =>
      simp only [getitem_intarray_none_index]
      rw [intarray_row_ok head st (sp - st) (hok (st, sp) (by simp))]
      rw [ih stops (by simpa using hlen) (fun p hp => hok p (by simp [hp]))]
      rfl

theorem getitem_intarray_some_loop_ok (starts stops head : List Int)
    (hss : starts.length ≤ stops.length) :
    ∀ (advRest : List Nat) (i : Nat) (index : List Int) (nextadvanced : List Nat),
    index.length = starts.length → nextadvanced.length = starts.length →
    i + advRest.length ≤ starts.length →
    (∀ k, (hk : k < advRest.length) →
        advRest.get ⟨k, hk⟩ < head.length
        ∧ 0 ≤ pynorm (head.getD (advRest.get ⟨k, hk⟩) 0) (stops.getD (i+k) 0 - starts.getD (i+k) 0)
        ∧ pynorm (head.getD (advRest.get ⟨k, hk⟩) 0) (stops.getD (i+k) 0 - starts.getD (i+k) 0)
            < stops.getD (i+k) 0 - starts.getD (i+k) 0) →
    getitem_intarray_some_loop starts stops head i advRest index nextadvanced
      = .ok (index.take i
              ++ (List.enumFrom i advRest).map (fun p =>
                    starts.getD p.1 0 + pynorm (head.getD p.2 0) (stops.getD p.1 0 - starts.getD p.1 0))
              ++ index.drop (i + advRest.length),
             nextadvanced.take i
              ++ (List.enumFrom i advRest).map (fun p => p.1)
              ++ nextadvanced.drop (i + advRest.length)) := by
  intro advRest
  induction advRest with
  | nil =>
    intro i index nextadvanced hidx hnadv hbound hok
    simp [getitem_intarray_some_loop]
  | cons a rest ih =>
    intro i index nextadvanced hidx hnadv hbound hok
    have h0 := hok 0 (by simp)
    simp only [List.get, Nat.add_zero] at h0
    have hist : i < starts.length := by simp at hbound; omega
    have hisp : i < stops.length := lt_of_lt_of_le hist hss
    simp only [getitem_intarray_some_loop, pyGet_nat stops i 0 hisp, pyGet_nat starts i 0 hist,
      Except.bind, bind, get?_eq_getD head a 0 (by simpa using h0.1)]
    rw [if_neg (by omega)]
    rw [ih (i+1) (index.set i (starts.getD i 0 + pynorm (head.getD a 0) (stops.getD i 0 - starts.getD i 0)))
          (nextadvanced.set i i)
          (by simpa using hidx) (by simpa using hnadv)
          (by simp at hbound ⊢; omega)
          (fun k hk => by
            have := hok (k+1) (by simpa using Nat.succ_lt_succ hk)
            simpa [Nat.add_assoc, Nat.add_comm 1 k, Nat.add_left_comm] using this)]
    rw [take_succ_set index i _ (by omega), take_succ_set nextadvanced i _ (by omega)]
    rw [drop_set_of_lt' index i _ _ (by omega), drop_set_of_lt' nextadvanced i _ _ (by omega)]
    simp [List.enumFrom, List.append_assoc, Nat.add_assoc, Nat.add_comm 1 rest.length]

theorem getitem_intarray_some_loop_err (starts stops head : List Int)
    (hss : starts.length ≤ stops.length) :
    ∀ (advRest : List Nat) (i : Nat) (index : List Int) (nextadvanced : List Nat),
    i + advRest.length ≤ starts.length →
    (∃ k, ∃ hk : k < advRest.length,
        head.length ≤ advRest.get ⟨k, hk⟩
        ∨ pynorm (head.getD (advRest.get ⟨k, hk⟩) 0) (stops.getD (i+k) 0 - starts.getD (i+k) 0) < 0
        ∨ stops.getD (i+k) 0 - starts.getD (i+k) 0
            ≤ pynorm (head.getD (advRest.get ⟨k, hk⟩) 0) (stops.getD (i+k) 0 - starts.getD (i+k) 0)) →
    getitem_intarray_some_loop starts stops head i advRest index nextadvanced
      = .error .indexError := by
  intro advRest
  induction advRest with
  | nil =>
    rintro i idx nadv hbound ⟨k, hk, _⟩
    exact absurd hk (by simp)
  | cons a rest ih =>
    rintro i idx nadv hbound ⟨k, hk, hviol⟩
    have hist : i < starts.length := by simp at hbound; omega
    have hisp : i < stops.length := lt_of_lt_of_le hist hss
    simp only [getitem_intarray_some_loop, pyGet_nat stops i 0 hisp, pyGet_nat starts i 0 hist,
      Except.bind, bind]
    by_cases ha : a < head.length
    · cases k with
      | zero =>
        simp only [List.get, Nat.add_zero] at hviol
        simp only [get?_eq_getD head a 0 ha]
        rw [if_pos (by omega)]
      | succ m =>
        by_cases hnorm : pynorm (head.getD a 0) (stops.getD i 0 - starts.getD i 0) < 0
            ∨ stops.getD i 0 - starts.getD i 0
                ≤ pynorm (head.getD a 0) (stops.getD i 0 - starts.getD i 0)
        · simp only [get?_eq_getD head a 0 ha]
          rw [if_pos (by omega)]
        · simp only [get?_eq_getD head a 0 ha]
          rw [if_neg (by omega)]
          refine ih (i+1) _ _ (by simp at hbound ⊢; omega)
            ⟨m, by simpa using Nat.lt_of_succ_lt_succ hk, ?_⟩
          have e : i + 1 + m = i + (m + 1) := by omega
          rw [e]
          exact hviol
    · rw [List.get?_eq_getElem?, List.getElem?_eq_none (by omega)]

theorem enumFrom_zero_map {α : Type} (l : List Nat) (f : Nat × Nat → α) :
    (List.enumFrom 0 l).map f = (List.range l.length).map (fun k => f (k, l.getD k 0)) := by
  apply List.ext_getElem
  · simp
  · intro k h1 h2
    simp only [List.getElem_map, List.getElem_enumFrom, List.getElem_range]
    have hk : k < l.length := by simpa using h1
    rw [List.getD_eq_getElem l 0 hk]
    exact congrArg f (by simp)

/-- Claim C3: the two integer-array branches of the recursive engine.
With the advanced context unset, the engine gathers
`starts[i] + normalized(term[j])` for every row `i` and every entry `j`,
and the new context value at each produced position is `j`.  With the
context set, the engine gathers one element per row by looking up
`term[context[i]]`, raising `IndexError` when `context[i]` exceeds the
term's length or the normalized value is out of the row's range, and the
refreshed context value for row `i` is `i`. -/
theorem C3_intarray_semantics (starts stops head : List Int) (adv : List Nat)
    (hlen : starts.length = stops.length) (hadv : adv.length = starts.length) :
    ( (∀ p ∈ starts.zip stops, ∀ x ∈ head,
          0 ≤ pynorm x (p.2 - p.1) ∧ pynorm x (p.2 - p.1) < p.2 - p.1) →
        getitem_intarray_none_index head starts stops
          = .ok ((starts.zip stops).flatMap (fun p => head.map (fun x => p.1 + pynorm x (p.2 - p.1))),
                 (starts.zip stops).flatMap (fun _ => List.range head.length)) )
    ∧ ( (∀ k, (hk : k < adv.length) →
            adv.get ⟨k, hk⟩ < head.length
            ∧ 0 ≤ pynorm (head.getD (adv.get ⟨k, hk⟩) 0) (stops.getD k 0 - starts.getD k 0)
            ∧ pynorm (head.getD (adv.get ⟨k, hk⟩) 0) (stops.getD k 0 - starts.getD k 0)
                < stops.getD k 0 - starts.getD k 0) →
        getitem_intarray_some_loop starts stops head 0 adv
            (List.replicate starts.length 999) (List.replicate starts.length 999)
          = .ok ((List.range adv.length).map (fun k =>
                   starts.getD k 0 + pynorm (head.getD (adv.getD k 0) 0) (stops.getD k 0 - starts.getD k 0)),
                 List.range adv.length) )
    ∧ ( (∃ k, ∃ hk : k < adv.length,
            head.length ≤ adv.get ⟨k, hk⟩
            ∨ pynorm (head.getD (adv.get ⟨k, hk⟩) 0) (stops.getD k 0 - starts.getD k 0) < 0
            ∨ stops.getD k 0 - starts.getD k 0
                ≤ pynorm (head.getD (adv.get ⟨k, hk⟩) 0) (stops.getD k 0 - starts.getD k 0)) →
        getitem_intarray_some_loop starts stops head 0 adv
            (List.replicate starts.length 999) (List.replicate starts.length 999)
          = .error .indexError ) := by
  refine ⟨fun hok => getitem_intarray_none_index_ok head starts stops hlen hok,
    fun hok => ?_, fun hviol => ?_⟩
  · rw [getitem_intarray_some_loop_ok starts stops head (by omega) adv 0 _ _
      (by simp) (by simp) (by omega)
      (fun k hk => by simpa using hok k hk)]
    rw [enumFrom_zero_map, enumFrom_zero_map]
    simp [hadv]
  · obtain ⟨k, hk, hv⟩ := hviol
    exact getitem_intarray_some_loop_err starts stops head (by omega) adv 0 _ _
      (by omega) ⟨k, hk, by simpa using hv⟩

/-- Witness for C3 on two rows `[0,2)` and `[2,4)` with term `[1,0]` and
context `[0,1]`. -/
theorem C3_intarray_semantics_w :
    getitem_intarray_none_index [1, 0] [0, 2] [2, 4]
      = .ok (([(0,2),(2,4)] : List (Int × Int)).flatMap
               (fun p => [1, 0].map (fun x => p.1 + pynorm x (p.2 - p.1))),
             ([(0,2),(2,4)] : List (Int × Int)).flatMap (fun _ => List.range 2))
    ∧ getitem_intarray_some_loop [0, 2] [2, 4] [1, 0] 0 [0, 1]
        (List.replicate 2 999) (List.replicate 2 999)
      = .ok ((List.range 2).map (fun k =>
               ([0, 2] : List Int).getD k 0
                 + pynorm (([1, 0] : List Int).getD (([0, 1] : List Nat).getD k 0) 0)
                     (([2, 4] : List Int).getD k 0 - ([0, 2] : List Int).getD k 0)),
             List.range 2) := by
  have h := C3_intarray_semantics [0, 2] [2, 4] [1, 0] [0, 1] (by decide) (by decide)
  refine ⟨?_, h.2.1 (by decide)⟩
  have h1 := h.1 (by decide)
  simpa using h1

/-- Witness for C5 at a concrete slice (`1:10` against row length 3,
clipping to `1:3`). -/
theorem C5_slice_normalization_w :
    getitem_next (.jag [0] [3] (.flat [7, 8, 9])) [.slice3 (some 1) (some 10) (some 0)] none
      = .error .valueError
    ∧ slice3_rowPositions (some 1) (some 10) none 3 = specSlicePositions (some 1) (some 10) none 3
    ∧ (0 ≤ (3:Int) → (2:Int) ∈ slice3_rowPositions (some 1) (some 10) none 3 → 0 ≤ (2:Int) ∧ (2:Int) < 3) := by
  have h := C5_slice_normalization [0] [3] (.flat [7, 8, 9]) (some 1) (some 10) none [] none 3 2
  exact ⟨h.1, h.2.1 (by omega), h.2.2⟩

/-! ### List kit for the C1 equivalence -/

theorem flatMap_length_uniform {α β : Type} (l : List α) (f : α → List β) (c : Nat)
    (h : ∀ x ∈ l, (f x).length = c) : (l.flatMap f).length = l.length * c := by
  induction l with
  | nil => simp
  | cons x t ih =>
    simp only [List.flatMap_cons, List.length_append, List.length_cons]
    rw [h x (by simp), ih (fun y hy => h y (by simp [hy]))]
    ring

theorem flatMap_take_uniform {α β : Type} (l : List α) (f : α → List β) (c : Nat)
    (h : ∀ x ∈ l, (f x).length = c) :
    ∀ k, (l.flatMap f).take (k * c) = (l.take k).flatMap f := by
  induction l with
  | nil => intro k; simp
  | cons x t ih =>
    intro k
    cases k with
    | zero => simp
    | succ m =>
      simp only [List.flatMap_cons]
      have hx : (f x).length = c := h x (by simp)
      have e : (m + 1) * c = (f x).length + m * c := by rw [hx]; ring
      rw [e, List.take_append, ih (fun y hy => h y (by simp [hy])) m]
      rfl

theorem flatMap_drop_uniform {α β : Type} (l : List α) (f : α → List β) (c : Nat)
    (h : ∀ x ∈ l, (f x).length = c) :
    ∀ k, (l.flatMap f).drop (k * c) = (l.drop k).flatMap f := by
  induction l with
  | nil => intro k; simp
  | cons x t ih =>
    intro k
    cases k with
    | zero => simp
    | succ m =>
      simp only [List.flatMap_cons]
      have hx : (f x).length = c := h x (by simp)
      have e : (m + 1) * c = (f x).length + m * c := by rw [hx]; ring
      rw [e, List.drop_append, ih (fun y hy => h y (by simp [hy])) m]
      rfl

theorem flatMap_getD_uniform {α β : Type} (l : List α) (f : α → List β) (c : Nat)
    (h : ∀ x ∈ l, (f x).length = c) (i j : Nat) (hi : i < l.length) (hj : j < c)
    (d : β) (dl : α) :
    (l.flatMap f).getD (i * c + j) d = (f (l.getD i dl)).getD j d := by
  induction l generalizing i with
  | nil => simp at hi
  | cons x t ih =>
    have hx : (f x).length = c := h x (by simp)
    cases i with
    | zero =>
      simp only [List.flatMap_cons, Nat.zero_mul, Nat.zero_add]
      rw [List.getD_append _ _ _ _ (by omega)]
      rfl
    | succ m =>
      simp only [List.flatMap_cons]
      have e : (m + 1) * c + j = (f x).length + (m * c + j) := by rw [hx]; ring
      rw [e, List.getD_append_right _ _ _ _ (by omega)]
      have e2 : (f x).length + (m * c + j) - (f x).length = m * c + j := by omega
      rw [e2, ih (fun y hy => h y (by simp [hy])) m (by simpa using hi)]
      rfl

theorem map_eq_range_getD {α β : Type} (l : List α) (f : α → β) (dl : α) :
    l.map f = (List.range l.length).map (fun i => f (l.getD i dl)) := by
  apply List.ext_getElem
  · simp
  · intro n h1 h2
    simp only [List.getElem_map, List.getElem_range]
    rw [List.getD_eq_getElem l dl (by simpa using h1)]

theorem range_mul_flatMap (a c : Nat) :
    List.range (a * c) = (List.range a).flatMap (fun i => (List.range c).map (fun j => i * c + j)) := by
  induction a with
  | zero => simp
  | succ m ih =>
    have e : (m + 1) * c = m * c + c := by ring
    rw [e, List.range_add, List.range_succ, List.flatMap_append, ← ih]
    simp only [List.flatMap_cons, List.flatMap_nil, List.append_nil]

theorem segment_as_range_map (data : List Int) (start len : Nat)
    (h : start + len ≤ data.length) :
    segment data start len = (List.range len).map (fun w => data.getD (start + w) 0) := by
  apply List.ext_getElem
  · simp [segment]; omega
  · intro n h1 h2
    simp only [segment, List.getElem_take, List.getElem_drop, List.getElem_map, List.getElem_range]
    rw [List.getD_eq_getElem data 0 (by simp [segment] at h1; omega)]

theorem segment_length (data : List Int) (start len : Nat) (h : start + len ≤ data.length) :
    (segment data start len).length = len := by
  simp [segment]; omega

theorem segment_flatMap_uniform {α : Type} (l : List Nat) (f : Nat → List α) (c : Nat)
    (h : ∀ x ∈ l, (f x).length = c) (i m : Nat) :
    segment (l.flatMap f) (i * (m * c)) (m * c) = (segment l (i * m) m).flatMap f := by
  simp only [segment]
  have e1 : i * (m * c) = (i * m) * c := by ring
  rw [e1, flatMap_drop_uniform l f c h (i * m)]
  have e2 : m * c = m * c := rfl
  rw [show (m * c) = m * c from rfl]
  rw [flatMap_take_uniform (l.drop (i * m)) f c (fun y hy => h y (List.mem_of_mem_drop hy)) m]

theorem pySlice_nat {α : Type} (xs : List α) (lo hi : Nat) (hlo : lo ≤ xs.length)
    (hhi : hi ≤ xs.length) :
    pySlice xs ((lo : Nat) : Int) ((hi : Nat) : Int) = (xs.take hi).drop lo := by
  simp only [pySlice]
  rw [if_neg (by omega : ¬ ((hi : Nat) : Int) < 0), if_neg (by omega : ¬ ((lo : Nat) : Int) < 0)]
  have e1 : (min (max ((hi : Nat) : Int) 0) (xs.length : Int)).toNat = hi := by omega
  have e2 : (min (max ((lo : Nat) : Int) 0) (xs.length : Int)).toNat = lo := by omega
  rw [e1, e2]

theorem pySlice_full {α : Type} (xs : List α) :
    pySlice xs 0 (xs.length : Int) = xs := by
  have h := pySlice_nat xs 0 xs.length (by omega) (by omega)
  simpa using h

/-! ### Claim C1: ragged engine vs dense reference semantics -/

/-- Counterexample to claim C1 as stated: with a negative integer term the
engine performs no per-row normalization (claim C10), so on
`A = arange(8).reshape(2,2,2)` the expression `A[:, -1]` yields
`[[6,7],[2,3]]` from the engine but `[[2,3],[6,7]]` under dense reference
semantics. -/
theorem C1_roundtrip_counterexample :
    (getitem_enter (denseWrap [2, 2, 2] [0, 1, 2, 3, 4, 5, 6, 7])
        [.slice3 none none none, .int (-1)]).map EnterRes.toTree
      = .ok (.node [.node [.leaf 6, .leaf 7], .node [.leaf 2, .leaf 3]])
    ∧ (npGetitem [2, 2, 2] [0, 1, 2, 3, 4, 5, 6, 7]
        [.slice3 none none none, .int (-1)]).map (fun r => denseTree r.1 r.2)
      = .ok (.node [.node [.leaf 2, .leaf 3], .node [.leaf 6, .leaf 7]])
    ∧ ¬ (Tree.node [.node [.leaf 6, .leaf 7], .node [.leaf 2, .leaf 3]]
          = Tree.node [.node [.leaf 2, .leaf 3], .node [.leaf 6, .leaf 7]]) :=
  ⟨rfl, rfl, by decide⟩

/-! ### Regular-state list identities -/

theorem segment_segment {α : Type} (data : List α) (s1 l1 s2 l2 : Nat) (h : s2 + l2 ≤ l1) :
    segment (segment data s1 l1) s2 l2 = segment data (s1 + s2) l2 := by
  simp only [segment]
  rw [List.drop_take, List.take_take, List.drop_drop]
  have e1 : min l2 (l1 - s2) = l2 := by omega
  rw [e1]

theorem segment_full {α : Type} (l : List α) : segment l 0 l.length = l := by
  simp [segment]

theorem segment_map {α β : Type} (f : α → β) (l : List α) (s c : Nat) :
    segment (l.map f) s c = (segment l s c).map f := by
  simp [segment, List.map_take, List.map_drop]

theorem segment_one {α : Type} (data : List α) (x : Nat) (d : α) (h : x < data.length) :
    segment data x 1 = [data.getD x d] := by
  apply List.ext_getElem
  · simp [segment]; omega
  · intro n h1 h2
    have hn : n = 0 := by simp at h2; omega
    subst hn
    simp only [segment, List.getElem_take, List.getElem_drop, List.getElem_cons_zero]
    rw [List.getD_eq_getElem data d h]
    simp

theorem zip_replicate_right {α β : Type} (l : List α) (c : β) (m : Nat) (hm : l.length = m) :
    l.zip (List.replicate m c) = l.map (fun y => (y, c)) := by
  induction l generalizing m with
  | nil => simp
  | cons x t ih =>
    match m with
    | 0 => simp at hm
    | m + 1 =>
      simp only [List.replicate_succ, List.zip_cons_cons, List.map_cons]
      rw [ih m (by simpa using hm)]

theorem zip_flatMap_uniform {α β γ : Type} (q : List α) (f : α → List β) (g : α → List γ)
    (m : Nat) (hf : ∀ x ∈ q, (f x).length = m) (hg : ∀ x ∈ q, (g x).length = m) :
    (q.flatMap f).zip (q.flatMap g) = q.flatMap (fun x => (f x).zip (g x)) := by
  induction q with
  | nil => simp
  | cons x t ih =>
    simp only [List.flatMap_cons]
    rw [List.zip_append (by rw [hf x (by simp), hg x (by simp)])]
    rw [ih (fun y hy => hf y (by simp [hy])) (fun y hy => hg y (by simp [hy]))]

theorem zip_flatMap_replicate {α β γ : Type} (q : List α) (ctx : List β) (f : α → List γ)
    (m : Nat) (hlen : ctx.length = q.length) (hf : ∀ x ∈ q, (f x).length = m) :
    (q.flatMap f).zip (ctx.flatMap (fun c => List.replicate m c))
      = (q.zip ctx).flatMap (fun p => (f p.1).map (fun y => (y, p.2))) := by
  induction q generalizing ctx with
  | nil =>
    match ctx with
    | [] => simp
    | _ :: _ => simp at hlen
  | cons x t ih =>
    match ctx with
    | [] => simp at hlen
    | c :: cs =>
      simp only [List.zip_cons_cons, List.flatMap_cons]
      rw [List.zip_append (by rw [hf x (by simp), List.length_replicate])]
      rw [zip_replicate_right (f x) c m (hf x (by simp))]
      rw [ih cs (by simpa using hlen) (fun y hy => hf y (by simp [hy]))]

theorem getD_map' {α β : Type} (l : List α) (f : α → β) (k : Nat) (d : β) (dl : α)
    (h : k < l.length) :
    (l.map f).getD k d = f (l.getD k dl) := by
  rw [List.getD_eq_getElem _ d (by simpa using h), List.getElem_map,
    List.getD_eq_getElem _ dl h]

/-! ### Bounds of the engine's per-row slice selections -/

theorem slice3_rowPositions_bounds {a0 b0 c0 : Option Int} {L j : Int} (hL : 0 ≤ L)
    (hj : j ∈ slice3_rowPositions a0 b0 c0 L) : 0 ≤ j ∧ j < L := by
  rw [slice3_rowPositions_eq] at hj
  simp only [slice3_normalize] at hj
  by_cases hs : 0 < c0.getD 1
  · rw [if_pos hs] at hj
    dsimp only at hj
    have hb := mem_intRange_pos hs hj
    exact ⟨le_trans (clampPos_bounds L _ hL).1 hb.1,
      lt_of_lt_of_le hb.2 (clampPos_bounds L _ hL).2⟩
  · rw [if_neg hs] at hj
    dsimp only at hj
    by_cases hz : c0.getD 1 = 0
    · rw [hz, intRange_zero] at hj
      cases hj
    · have hb := mem_intRange_neg (by omega) hj
      have hx : (-1 : Int) < j := lt_of_le_of_lt (clampNeg_bounds L _ hL).1 hb.1
      have hy : j ≤ L - 1 := le_trans hb.2 (clampNeg_bounds L _ hL).2
      omega

theorem intRangeLen_le_pos {a b c : Int} (hc : 0 < c) : intRangeLen a b c ≤ (b - a).toNat := by
  simp only [intRangeLen, if_pos hc]
  have hcn : 0 < c.toNat := by omega
  rw [Nat.div_le_iff_le_mul_add_pred hcn]
  have h2 : (b - a).toNat ≤ c.toNat * (b - a).toNat := Nat.le_mul_of_pos_left _ hcn
  omega

theorem intRangeLen_le_neg {a b c : Int} (hc : c < 0) : intRangeLen a b c ≤ (a - b).toNat := by
  simp only [intRangeLen, if_neg (by omega : ¬ 0 < c)]
  have hcn : 0 < (-c).toNat := by omega
  rw [Nat.div_le_iff_le_mul_add_pred hcn]
  have h2 : (a - b).toNat ≤ (-c).toNat * (a - b).toNat := Nat.le_mul_of_pos_left _ hcn
  omega

theorem slice3_normalize_bounds (a0 b0 c0 : Option Int) (L : Int) (hL : 0 ≤ L) :
    (0 < (slice3_normalize a0 b0 c0 L).2.2 →
      0 ≤ (slice3_normalize a0 b0 c0 L).1 ∧ (slice3_normalize a0 b0 c0 L).1 ≤ L ∧
      0 ≤ (slice3_normalize a0 b0 c0 L).2.1 ∧ (slice3_normalize a0 b0 c0 L).2.1 ≤ L)
    ∧ ((slice3_normalize a0 b0 c0 L).2.2 < 0 →
      -1 ≤ (slice3_normalize a0 b0 c0 L).1 ∧ (slice3_normalize a0 b0 c0 L).1 ≤ L - 1 ∧
      -1 ≤ (slice3_normalize a0 b0 c0 L).2.1 ∧ (slice3_normalize a0 b0 c0 L).2.1 ≤ L - 1) := by
  simp only [slice3_normalize]
  by_cases hs : 0 < c0.getD 1
  · rw [if_pos hs]
    dsimp only
    refine ⟨fun _ => ⟨(clampPos_bounds L _ hL).1, (clampPos_bounds L _ hL).2,
      (clampPos_bounds L _ hL).1, (clampPos_bounds L _ hL).2⟩, fun hneg => ?_⟩
    omega
  · rw [if_neg hs]
    dsimp only
    refine ⟨fun hpos => ?_, fun _ => ⟨(clampNeg_bounds L _ hL).1, (clampNeg_bounds L _ hL).2,
      (clampNeg_bounds L _ hL).1, (clampNeg_bounds L _ hL).2⟩⟩
    omega

theorem slice3_rowPositions_length_le (a0 b0 c0 : Option Int) (n : Nat) :
    (slice3_rowPositions a0 b0 c0 (n : Int)).length ≤ n := by
  rw [slice3_rowPositions_eq]
  have hb := slice3_normalize_bounds a0 b0 c0 (n : Int) (by omega)
  by_cases hc0 : (slice3_normalize a0 b0 c0 (n : Int)).2.2 = 0
  · rw [hc0, intRange_zero]
    simp
  · simp only [intRange, if_neg hc0, List.length_map, List.length_range]
    by_cases hc : 0 < (slice3_normalize a0 b0 c0 (n : Int)).2.2
    · have hab := hb.1 hc
      calc intRangeLen (slice3_normalize a0 b0 c0 (n : Int)).1
            (slice3_normalize a0 b0 c0 (n : Int)).2.1 (slice3_normalize a0 b0 c0 (n : Int)).2.2
          ≤ ((slice3_normalize a0 b0 c0 (n : Int)).2.1
              - (slice3_normalize a0 b0 c0 (n : Int)).1).toNat := intRangeLen_le_pos hc
        _ ≤ n := by omega
    · have hcneg : (slice3_normalize a0 b0 c0 (n : Int)).2.2 < 0 := by omega
      have hab := hb.2 hcneg
      calc intRangeLen (slice3_normalize a0 b0 c0 (n : Int)).1
            (slice3_normalize a0 b0 c0 (n : Int)).2.1 (slice3_normalize a0 b0 c0 (n : Int)).2.2
          ≤ ((slice3_normalize a0 b0 c0 (n : Int)).1
              - (slice3_normalize a0 b0 c0 (n : Int)).2.1).toNat := intRangeLen_le_neg hcneg
        _ ≤ n := by omega

/-! ### Gathers and handlers on regular (dense-backed) states -/

theorem getD_range_map {β : Type} (g : Nat → β) (M x : Nat) (d : β) (hx : x < M) :
    ((List.range M).map g).getD x d = g x := by
  rw [getD_map' _ g x d 0 (by simpa using hx)]
  congr 1
  rw [List.getD_eq_getElem _ 0 (by simpa using hx), List.getElem_range]

theorem mapM_pyGet_nat {α : Type} (xs : List α) (d : α) (pos : List Nat)
    (h : ∀ x ∈ pos, x < xs.length) :
    (pos.map (fun x : Nat => (x : Int))).mapM (pyGet xs) = .ok (pos.map (fun x => xs.getD x d)) := by
  induction pos with
  | nil => rfl
  | cons p t ih =>
    simp only [List.map_cons, List.mapM_cons]
    rw [pyGet_nat xs p d (h p (by simp))]
    rw [ih (fun y hy => h y (by simp [hy]))]
    rfl

theorem gather_denseContent (rest : List Nat) (M : Nat) (data : List Int) (pos : List Nat)
    (hdata : data.length = M * rest.prod) (hpos : ∀ x ∈ pos, x < M) :
    (denseContent M rest data).gather (pos.map (fun x : Nat => (x : Int)))
      = .ok (mkState M rest data pos) := by
  match rest with
  | [] =>
    simp only [denseContent, NDA.gather]
    rw [mapM_pyGet_nat data 0 pos (fun x hx => by
      have := hpos x hx
      simp only [List.prod_nil, Nat.mul_one] at hdata
      omega)]
    simp only [Except.bind, bind, mkState]
  | n :: more =>
    simp only [denseContent, NDA.gather]
    rw [mapM_pyGet_nat _ (0 : Int) pos (fun x hx => by simpa using hpos x hx)]
    rw [mapM_pyGet_nat _ (0 : Int) pos (fun x hx => by simpa using hpos x hx)]
    simp only [Except.bind, bind, mkState]
    rw [List.map_congr_left (fun x hx => getD_range_map (fun i => ((i * n : Nat) : Int)) M x 0
      (hpos x hx))]
    rw [List.map_congr_left (fun x hx => getD_range_map (fun i => (((i + 1) * n : Nat) : Int)) M x 0
      (hpos x hx))]

theorem spread_advanced_uniform (starts stops : List Int) (ctx : List Nat) (m : Nat)
    (h1 : starts.length = stops.length) (h2 : stops.length = ctx.length)
    (hm : ∀ p ∈ starts.zip stops, p.2 - p.1 = (m : Int)) :
    spread_advanced starts stops (some ctx)
      = .ok (some (ctx.flatMap (fun c => List.replicate m c))) := by
  simp only [spread_advanced]
  rw [if_pos ⟨h1, h2⟩]
  have key : ∀ (ss tt : List Int) (cc : List Nat), ss.length = tt.length →
      tt.length = cc.length → (∀ p ∈ ss.zip tt, p.2 - p.1 = (m : Int)) →
      ((ss.zip tt).zip cc).flatMap (fun p => List.replicate (p.1.2 - p.1.1).toNat p.2)
        = cc.flatMap (fun c => List.replicate m c) := by
    intro ss
    induction ss with
    | nil =>
      intro tt cc e1 e2 _
      match tt, cc with
      | [], [] => rfl
      | [], _ :: _ => simp at e2
      | _ :: _, _ => simp at e1
    | cons st ss ih =>
      intro tt cc e1 e2 hmm
      match tt, cc with
      | [], _ => simp at e1
      | _ :: _, [] => simp at e2
      | sp :: tt, c :: cc =>
        simp only [List.zip_cons_cons, List.flatMap_cons]
        have h0 : sp - st = (m : Int) := hmm (st, sp) (by simp)
        rw [h0, get?_toNat_nat m]
        rw [ih tt cc (by simpa using e1) (by simpa using e2)
          (fun p hp => hmm p (by simp [hp]))]
  rw [key starts stops ctx h1 h2 hm]

theorem getitem_slice3_rows_regular (a b c : Option Int) (n : Nat) :
    ∀ (q : List Nat) (k : Nat),
    getitem_slice3_rows a b c (k : Int)
        (q.map (fun x => ((x * n : Nat) : Int))) (q.map (fun x => (((x + 1) * n : Nat) : Int)))
      = .ok ((List.range q.length).map (fun i =>
               ((k + i * (slice3_rowPositions a b c (n : Int)).length : Nat) : Int)),
             (List.range q.length).map (fun i =>
               ((k + (i + 1) * (slice3_rowPositions a b c (n : Int)).length : Nat) : Int)),
             q.flatMap (fun x => (slice3_rowPositions a b c (n : Int)).map
               (fun j => ((x * n + j.toNat : Nat) : Int)))) := by
  intro q
  induction q with
  | nil =>
    intro k
    simp [getitem_slice3_rows]
  | cons x t ih =>
    intro k
    simp only [List.map_cons, getitem_slice3_rows]
    have hlen : (((x + 1) * n : Nat) : Int) - ((x * n : Nat) : Int) = (n : Int) := by
      push_cast; ring
    rw [hlen]
    simp only [List.length_map]
    have hrec := ih (k + (slice3_rowPositions a b c (n : Int)).length)
    rw [show ((k + (slice3_rowPositions a b c (n : Int)).length : Nat) : Int)
        = (k : Int) + ((slice3_rowPositions a b c (n : Int)).length : Int) from by push_cast; ring]
      at hrec
    rw [hrec]
    simp only [Except.bind, bind]
    refine congrArg Except.ok ?_
    refine congrArg₂ Prod.mk ?_ (congrArg₂ Prod.mk ?_ ?_)
    · rw [List.length_cons, List.range_succ_eq_map, List.map_cons, List.map_map]
      refine congrArg₂ List.cons (by push_cast; ring_nf) ?_
      refine List.map_congr_left (fun i _ => ?_)
      simp only [Function.comp, Nat.succ_eq_add_one]
      refine congrArg _ (by ring)
    · rw [List.length_cons, List.range_succ_eq_map, List.map_cons, List.map_map]
      refine congrArg₂ List.cons (by push_cast; ring_nf) ?_
      refine List.map_congr_left (fun i _ => ?_)
      simp only [Function.comp, Nat.succ_eq_add_one]
      refine congrArg _ (by ring)
    · rw [List.flatMap_cons]
      refine congrArg₂ List.append ?_ rfl
      refine List.map_congr_left (fun j hj => ?_)
      have hb := slice3_rowPositions_bounds (by omega : (0 : Int) ≤ (n : Int)) hj
      push_cast
      omega

theorem flatMap_congr_mem {α β : Type} (l : List α) (f g : α → List β)
    (h : ∀ x ∈ l, f x = g x) : l.flatMap f = l.flatMap g := by
  induction l with
  | nil => rfl
  | cons x t ih =>
    simp only [List.flatMap_cons]
    rw [h x (by simp), ih (fun y hy => h y (by simp [hy]))]

theorem zip_as_range {α β : Type} (l : List α) (r : List β) (dl : α) (dr : β)
    (h : r.length = l.length) :
    l.zip r = (List.range l.length).map (fun k => (l.getD k dl, r.getD k dr)) := by
  apply List.ext_getElem
  · simp [h]
  · intro k h1 h2
    have hk : k < l.length := by simpa using h2
    simp only [List.getElem_zip, List.getElem_map, List.getElem_range]
    rw [List.getD_eq_getElem l dl hk, List.getD_eq_getElem r dr (by omega)]

theorem denseContent_len (M : Nat) (rest : List Nat) (data : List Int)
    (hdata : data.length = M * rest.prod) : (denseContent M rest data).len = M := by
  match rest with
  | [] =>
    simp only [denseContent, NDA.len]
    simpa using hdata
  | n :: more => simp [denseContent, NDA.len]

theorem arrCount_cons_int (h : Int) (ts : List NTerm) :
    arrCount (.int h :: ts) = arrCount ts := by
  simp [arrCount, List.countP_cons]

theorem arrCount_cons_slice (a b c : Option Int) (ts : List NTerm) :
    arrCount (.slice3 a b c :: ts) = arrCount ts := by
  simp [arrCount, List.countP_cons]

theorem arrCount_cons_arr (xs : List Int) (ts : List NTerm) :
    arrCount (.arr xs :: ts) = arrCount ts + 1 := by
  simp [arrCount, List.countP_cons]

theorem arrCount_le_length (ts : List NTerm) : arrCount ts ≤ ts.length :=
  List.countP_le_length _

theorem rowOffsets_const (ts : List NTerm) :
    ∀ (ds : List Nat), arrCount ts = 0 →
    ∀ (k k' : Option Nat), rowOffsets ds ts k = rowOffsets ds ts k' := by
  induction ts with
  | nil => intro ds _ k k'; cases ds <;> rfl
  | cons t ts ih =>
    intro ds h k k'
    match ds with
    | [] => rfl
    | n :: rest =>
      match t with
      | .int hh =>
        simp only [rowOffsets]
        rw [ih rest (by rw [arrCount_cons_int] at h; exact h) k k']
      | .slice3 a b c =>
        simp only [rowOffsets]
        rw [ih rest (by rw [arrCount_cons_slice] at h; exact h) k k']
      | .arr xs =>
        exfalso
        rw [arrCount_cons_arr] at h
        omega

/-! ### Unfolding equations for the closed-form descriptors -/

theorem rowOffsets_int (n : Nat) (rest : List Nat) (h : Int) (ts : List NTerm)
    (k : Option Nat) :
    rowOffsets (n :: rest) (.int h :: ts) k
      = (rowOffsets rest ts k).map (fun w => h.toNat * (rest.take ts.length).prod + w) := by
  cases k <;> rfl

theorem rowOffsets_slice (n : Nat) (rest : List Nat) (a b c : Option Int) (ts : List NTerm)
    (k : Option Nat) :
    rowOffsets (n :: rest) (.slice3 a b c :: ts) k
      = (slice3_rowPositions a b c (n : Int)).flatMap (fun j =>
          (rowOffsets rest ts k).map (fun w => j.toNat * (rest.take ts.length).prod + w)) := by
  cases k <;> rfl

theorem rowOffsets_arr_none (n : Nat) (rest : List Nat) (xs : List Int) (ts : List NTerm) :
    rowOffsets (n :: rest) (.arr xs :: ts) none
      = (List.range xs.length).flatMap (fun j =>
          (rowOffsets rest ts (some j)).map (fun w =>
            (pynorm (xs.getD j 0) (n : Int)).toNat * (rest.take ts.length).prod + w)) := rfl

theorem rowOffsets_arr_some (n : Nat) (rest : List Nat) (xs : List Int) (ts : List NTerm)
    (c : Nat) :
    rowOffsets (n :: rest) (.arr xs :: ts) (some c)
      = (rowOffsets rest ts (some c)).map (fun w =>
          (pynorm (xs.getD c 0) (n : Int)).toNat * (rest.take ts.length).prod + w) := rfl

theorem emitDims_int (n : Nat) (rest : List Nat) (h : Int) (ts : List NTerm) (advSet : Bool) :
    emitDims (n :: rest) (.int h :: ts) advSet = emitDims rest ts advSet := by
  cases advSet <;> rfl

theorem emitDims_slice (n : Nat) (rest : List Nat) (a b c : Option Int) (ts : List NTerm)
    (advSet : Bool) :
    emitDims (n :: rest) (.slice3 a b c :: ts) advSet
      = (slice3_rowPositions a b c (n : Int)).length :: emitDims rest ts advSet := by
  cases advSet <;> rfl

theorem emitDims_arr_false (n : Nat) (rest : List Nat) (xs : List Int) (ts : List NTerm) :
    emitDims (n :: rest) (.arr xs :: ts) false = xs.length :: emitDims rest ts true := rfl

theorem emitDims_arr_true (n : Nat) (rest : List Nat) (xs : List Int) (ts : List NTerm) :
    emitDims (n :: rest) (.arr xs :: ts) true = emitDims rest ts true := rfl

/-! ### The engine on dense-backed states: closed form -/

theorem getitem_next_mkState (L : Nat) :
    ∀ (ts : List NTerm) (ds : List Nat) (N : Nat) (data : List Int) (q : List Nat)
      (adv : Option (List Nat)),
    data.length = N * ds.prod →
    (∀ x ∈ q, x < N) →
    q.length ≤ N →
    ts.length ≤ ds.length →
    tvalid L adv.isSome ts ds = true →
    (adv = none → ts.length ≤ 3 ∧ (ts.length = 3 → q.length = 1)) →
    (∀ ctx, adv = some ctx → ts.length ≤ 2 ∧ ctx.length = q.length
         ∧ (1 ≤ arrCount ts → ∀ cv ∈ ctx, cv < L)
         ∧ (2 ≤ arrCount ts → ctx = List.range q.length)) →
    getitem_next (mkState N ds data q) ts adv
      = .ok (wrapNDA q.length (emitDims ds ts adv.isSome)
          (mkState (N * (ds.take ts.length).prod) (ds.drop ts.length) data
            ((ctxPairs q adv).flatMap (fun p =>
              (rowOffsets ds ts p.2).map (fun w =>
                p.1 * (ds.take ts.length).prod + w))))) := by
  intro ts
  induction ts with
  | nil =>
    intro ds N data q adv h1 h2 h3 h4 h5 h6a h6b
    have e0 : ∀ k, rowOffsets ds [] k = [0] := by intro k; cases ds <;> rfl
    have e1 : emitDims ds [] adv.isSome = [] := by cases ds <;> rfl
    simp only [getitem_next, e0, e1, List.length_nil, List.take_zero, List.prod_nil,
      Nat.mul_one, List.drop_zero, wrapNDA, List.map_cons, List.map_nil, Nat.add_zero]
    have e2 : (ctxPairs q adv).flatMap (fun p => [p.1]) = q := by
      cases adv with
      | none =>
        simp only [ctxPairs]
        rw [List.flatMap_map]
        simp
      | some ctx =>
        simp only [ctxPairs]
        have hl : (ctx.map some).length = q.length := by
          have hc := (h6b ctx rfl).2.1
          simp [hc]
        calc (q.zip (ctx.map some)).flatMap (fun p => [p.1])
            = (q.zip (ctx.map some)).map (fun p => p.1) := by
              rw [← List.flatMap_singleton' ((q.zip (ctx.map some)).map (fun p => p.1))]
              rw [List.flatMap_map]
          _ = q := List.map_fst_zip _ _ (by omega)
    rw [e2]
  | cons t ts ih =>
    intro ds N data q adv h1 h2 h3 h4 h5 h6a h6b
    match ds with
    | [] => exact absurd h4 (by simp)
    | n :: rest =>
      have hdata2 : data.length = (N * n) * rest.prod := by
        rw [h1, List.prod_cons]; ring
      have h4' : ts.length ≤ rest.length := by simpa using h4
      match t with
      | .int h =>
        simp only [tvalid, Bool.and_eq_true, decide_eq_true_eq] at h5
        obtain ⟨⟨hh0, hhn⟩, h5⟩ := h5
        have hn1 : 0 < n := by omega
        rw [show mkState N (n :: rest) data q
            = NDA.jag (q.map (fun x : Nat => ((x * n : Nat) : Int)))
                (q.map (fun x : Nat => (((x + 1) * n : Nat) : Int)))
                (denseContent (N * n) rest data) from rfl]
        simp only [getitem_next]
        rw [getitem_integer_index_ok h _ _ (by simp) (fun p hp => by
          rw [List.zip_map'] at hp
          obtain ⟨x, hx, rfl⟩ := List.mem_map.mp hp
          push_cast
          ring_nf
          omega)]
        simp only [Except.bind, bind]
        rw [List.map_map]
        have earg : q.map ((fun s => s + h) ∘ (fun x : Nat => ((x * n : Nat) : Int)))
            = (q.map (fun x => x * n + h.toNat)).map (fun x : Nat => (x : Int)) := by
          rw [List.map_map]
          exact List.map_congr_left (fun x _ => by
            simp only [Function.comp]
            push_cast
            omega)
        rw [earg]
        rw [gather_denseContent rest (N * n) data _ hdata2 (fun y hy => by
          obtain ⟨x, hx, rfl⟩ := List.mem_map.mp hy
          have hxN := h2 x hx
          have e : (x + 1) * n = x * n + n := by ring
          have e2 : (x + 1) * n ≤ N * n := Nat.mul_le_mul_right n (by omega)
          omega)]
        simp only [Except.bind, bind]
        have h6a' : adv = none → ts.length ≤ 3 ∧ (ts.length = 3 →
            (q.map (fun x => x * n + h.toNat)).length = 1) := by
          intro heq
          obtain ⟨ha, hb⟩ := h6a heq
          exact ⟨by simp at ha; omega, fun hc => absurd ha (by simp; omega)⟩
        have h6b' : ∀ ctx, adv = some ctx → ts.length ≤ 2
            ∧ ctx.length = (q.map (fun x => x * n + h.toNat)).length
            ∧ (1 ≤ arrCount ts → ∀ cv ∈ ctx, cv < L)
            ∧ (2 ≤ arrCount ts →
                ctx = List.range (q.map (fun x => x * n + h.toNat)).length) := by
          intro ctx heq
          obtain ⟨ha, hb, hc, hd⟩ := h6b ctx heq
          refine ⟨by simp at ha; omega, by simpa using hb, ?_, ?_⟩
          · intro h1a
            exact hc (by rw [arrCount_cons_int]; exact h1a)
          · intro h2a
            rw [hd (by rw [arrCount_cons_int]; exact h2a)]
            simp
        rw [ih rest (N * n) data (q.map (fun x => x * n + h.toNat)) adv hdata2 (fun y hy => by
            obtain ⟨x, hx, rfl⟩ := List.mem_map.mp hy
            have hxN := h2 x hx
            have e : (x + 1) * n = x * n + n := by ring
            have e2 : (x + 1) * n ≤ N * n := Nat.mul_le_mul_right n (by omega)
            omega)
          (by
            simp only [List.length_map]
            exact le_trans h3 (Nat.le_mul_of_pos_right N hn1))
          h4' h5 h6a' h6b']
        have hQ : (ctxPairs (q.map (fun x => x * n + h.toNat)) adv).flatMap (fun p =>
              (rowOffsets rest ts p.2).map (fun w =>
                p.1 * (rest.take ts.length).prod + w))
            = (ctxPairs q adv).flatMap (fun p =>
              (rowOffsets (n :: rest) (.int h :: ts) p.2).map (fun w =>
                p.1 * (n * (rest.take ts.length).prod) + w)) := by
          cases adv with
          | none =>
            simp only [ctxPairs, List.map_map, List.flatMap_map, rowOffsets_int]
            refine flatMap_congr_mem _ _ _ (fun x _ => ?_)
            simp only [Function.comp, List.map_map]
            exact List.map_congr_left (fun w _ => by
              simp only [Function.comp]
              ring)
          | some ctx =>
            simp only [ctxPairs, rowOffsets_int, List.zip_map_left, List.flatMap_map]
            refine flatMap_congr_mem _ _ _ (fun p _ => ?_)
            obtain ⟨x, oc⟩ := p
            simp only [Prod.map, id, Function.comp, List.map_map]
            exact List.map_congr_left (fun w _ => by
              simp only [Function.comp]
              ring)
        rw [hQ]
        simp only [List.length_map, List.length_cons, List.take_succ_cons,
          List.drop_succ_cons, List.prod_cons, emitDims_int, Nat.mul_assoc]
      | .slice3 a b c =>
        simp only [tvalid, Bool.and_eq_true, decide_eq_true_eq] at h5
        obtain ⟨hc0, h5⟩ := h5
        rw [show mkState N (n :: rest) data q
            = NDA.jag (q.map (fun x : Nat => ((x * n : Nat) : Int)))
                (q.map (fun x : Nat => (((x + 1) * n : Nat) : Int)))
                (denseContent (N * n) rest data) from rfl]
        simp only [getitem_next]
        rw [if_neg hc0]
        have hreg := getitem_slice3_rows_regular a b c n q 0
        simp only [Nat.cast_zero, Nat.zero_add] at hreg
        rw [hreg]
        simp only [Except.bind, bind, List.length_map, Nat.sub_self, List.replicate_zero,
          List.append_nil]
        rw [denseContent_len (N * n) rest data hdata2]
        have hflen : (q.flatMap (fun x => (slice3_rowPositions a b c (n : Int)).map
              (fun j => ((x * n + j.toNat : Nat) : Int)))).length
            = q.length * (slice3_rowPositions a b c (n : Int)).length :=
          flatMap_length_uniform q _ _ (fun x _ => by simp)
        rw [hflen]
        rw [if_neg (by
          simp only [gt_iff_lt, not_lt]
          exact Nat.mul_le_mul h3 (slice3_rowPositions_length_le a b c n))]
        have eidx : q.flatMap (fun x => (slice3_rowPositions a b c (n : Int)).map
              (fun j => ((x * n + j.toNat : Nat) : Int)))
            = (q.flatMap (fun x => (slice3_rowPositions a b c (n : Int)).map
                (fun j => x * n + j.toNat))).map (fun x : Nat => (x : Int)) := by
          rw [List.map_flatMap]
          exact flatMap_congr_mem _ _ _ (fun x _ => by rw [List.map_map]; rfl)
        rw [eidx]
        have hbound : ∀ y ∈ q.flatMap (fun x => (slice3_rowPositions a b c (n : Int)).map
            (fun j => x * n + j.toNat)), y < N * n := by
          intro y hy
          obtain ⟨x, hx, hy2⟩ := List.mem_flatMap.mp hy
          obtain ⟨j, hj, rfl⟩ := List.mem_map.mp hy2
          have hb := slice3_rowPositions_bounds (by omega : (0 : Int) ≤ (n : Int)) hj
          have hxN := h2 x hx
          have e : (x + 1) * n = x * n + n := by ring
          have e2 : (x + 1) * n ≤ N * n := Nat.mul_le_mul_right n (by omega)
          omega
        have hlen2 : (q.flatMap (fun x => (slice3_rowPositions a b c (n : Int)).map
              (fun j => x * n + j.toNat))).length
            = q.length * (slice3_rowPositions a b c (n : Int)).length :=
          flatMap_length_uniform q _ _ (fun x _ => by simp)
        rw [gather_denseContent rest (N * n) data _ hdata2 hbound]
        simp only [Except.bind, bind]
        cases adv with
        | none =>
          rw [show spread_advanced
              ((List.range q.length).map (fun i =>
                ((i * (slice3_rowPositions a b c (n : Int)).length : Nat) : Int)))
              ((List.range q.length).map (fun i =>
                (((i + 1) * (slice3_rowPositions a b c (n : Int)).length : Nat) : Int)))
              none = .ok none from rfl]
          simp only [Except.bind, bind]
          obtain ⟨ha6, hb6⟩ := h6a rfl
          rw [ih rest (N * n) data _ none hdata2 hbound
            (by rw [hlen2]
                exact Nat.mul_le_mul h3 (slice3_rowPositions_length_le a b c n))
            h4' h5
            (fun _ => ⟨by simp at ha6; omega, fun hc3 => absurd ha6 (by simp; omega)⟩)
            (fun ctx heq => absurd heq (by simp))]
          rw [hlen2]
          have hQ : (ctxPairs (q.flatMap (fun x => (slice3_rowPositions a b c (n : Int)).map
                  (fun j => x * n + j.toNat))) none).flatMap (fun p =>
                (rowOffsets rest ts p.2).map (fun w =>
                  p.1 * (rest.take ts.length).prod + w))
              = (ctxPairs q none).flatMap (fun p =>
                (rowOffsets (n :: rest) (.slice3 a b c :: ts) p.2).map (fun w =>
                  p.1 * (n * (rest.take ts.length).prod) + w)) := by
            simp only [ctxPairs, List.flatMap_map, List.map_map, rowOffsets_slice]
            rw [List.flatMap_assoc]
            refine flatMap_congr_mem _ _ _ (fun x _ => ?_)
            simp only [Function.comp, List.flatMap_map, List.map_flatMap, List.map_map]
            refine flatMap_congr_mem _ _ _ (fun j _ => ?_)
            exact List.map_congr_left (fun w _ => by
              simp only [Function.comp]
              ring)
          rw [hQ]
          simp only [List.length_cons, List.take_succ_cons, List.drop_succ_cons,
            List.prod_cons, Nat.mul_assoc, emitDims_slice, Option.isSome, wrapNDA]
        | some ctx =>
          obtain ⟨hts2, hclen, hcval, hcrng⟩ := h6b ctx rfl
          rw [spread_advanced_uniform _ _ ctx ((slice3_rowPositions a b c (n : Int)).length)
            (by simp) (by simp [hclen]) (fun p hp => by
              rw [List.zip_map'] at hp
              obtain ⟨i, hi, rfl⟩ := List.mem_map.mp hp
              push_cast
              ring)]
          simp only [Except.bind, bind]
          rw [ih rest (N * n) data _
            (some (ctx.flatMap (fun cv =>
              List.replicate ((slice3_rowPositions a b c (n : Int)).length) cv)))
            hdata2 hbound
            (by rw [hlen2]
                exact Nat.mul_le_mul h3 (slice3_rowPositions_length_le a b c n))
            h4' h5
            (fun heq => absurd heq (by simp))
            (fun ctx2 heq => by
              have hc2 := Option.some.inj heq
              subst hc2
              refine ⟨by simp at hts2; omega, ?_, ?_, ?_⟩
              · rw [flatMap_length_uniform ctx _
                  ((slice3_rowPositions a b c (n : Int)).length)
                  (fun cv _ => List.length_replicate _ _), hlen2, hclen]
              · intro h1a cv hcv
                obtain ⟨cv0, hcv0, hmem⟩ := List.mem_flatMap.mp hcv
                rw [List.eq_of_mem_replicate hmem]
                exact hcval (by rw [arrCount_cons_slice]; exact h1a) cv0 hcv0
              · intro h2a
                have := arrCount_le_length ts
                simp at hts2
                omega)]
          rw [hlen2]
          have hQ : (ctxPairs (q.flatMap (fun x => (slice3_rowPositions a b c (n : Int)).map
                  (fun j => x * n + j.toNat)))
                (some (ctx.flatMap (fun cv =>
                  List.replicate ((slice3_rowPositions a b c (n : Int)).length) cv)))).flatMap
                (fun p => (rowOffsets rest ts p.2).map (fun w =>
                  p.1 * (rest.take ts.length).prod + w))
              = (ctxPairs q (some ctx)).flatMap (fun p =>
                (rowOffsets (n :: rest) (.slice3 a b c :: ts) p.2).map (fun w =>
                  p.1 * (n * (rest.take ts.length).prod) + w)) := by
            simp only [ctxPairs]
            have ectx : (ctx.flatMap (fun cv =>
                  List.replicate ((slice3_rowPositions a b c (n : Int)).length) cv)).map some
                = (ctx.map some).flatMap (fun cv =>
                  List.replicate ((slice3_rowPositions a b c (n : Int)).length) cv) := by
              rw [List.map_flatMap, List.flatMap_map]
              exact flatMap_congr_mem _ _ _ (fun cv _ => by
                simp [List.map_replicate, Function.comp])
            rw [ectx]
            rw [zip_flatMap_replicate q (ctx.map some) _ _ (by simp [hclen])
              (fun x _ => by simp)]
            rw [List.flatMap_assoc]
            refine flatMap_congr_mem _ _ _ (fun p _ => ?_)
            obtain ⟨x, oc⟩ := p
            simp only [rowOffsets_slice, List.flatMap_map, List.map_flatMap, List.map_map]
            refine flatMap_congr_mem _ _ _ (fun j _ => ?_)
            exact List.map_congr_left (fun w _ => by
              simp only [Function.comp]
              ring)
          rw [hQ]
          simp only [List.length_cons, List.take_succ_cons, List.drop_succ_cons,
            List.prod_cons, Nat.mul_assoc, emitDims_slice, Option.isSome, wrapNDA]
      | .arr xs =>
        cases adv with
        | none =>
          simp only [Option.isSome_none] at h5
          simp only [tvalid, Bool.and_eq_true, Bool.false_or, decide_eq_true_eq,
            List.all_eq_true] at h5
          obtain ⟨⟨⟨hxsL, hLn⟩, hentries⟩, h5⟩ := h5
          have hentries' : ∀ y ∈ xs, 0 ≤ pynorm y (n : Int) ∧ pynorm y (n : Int) < (n : Int) :=
            fun y hy => by simpa using hentries y hy
          rw [show mkState N (n :: rest) data q
              = NDA.jag (q.map (fun x : Nat => ((x * n : Nat) : Int)))
                  (q.map (fun x : Nat => (((x + 1) * n : Nat) : Int)))
                  (denseContent (N * n) rest data) from rfl]
          simp only [getitem_next]
          rw [getitem_intarray_none_index_ok xs _ _ (by simp) (fun p hp => by
            rw [List.zip_map'] at hp
            obtain ⟨x, hx, rfl⟩ := List.mem_map.mp hp
            intro y hy
            have e : (((x + 1) * n : Nat) : Int) - ((x * n : Nat) : Int) = (n : Int) := by
              push_cast; ring
            rw [e]
            exact hentries' y hy)]
          simp only [Except.bind, bind, List.zip_map', List.flatMap_map, List.length_map,
            Nat.sub_self, List.replicate_zero, List.append_nil]
          have eidx : q.flatMap (fun a => xs.map (fun y =>
                ((a * n : Nat) : Int) + pynorm y ((((a + 1) * n : Nat) : Int)
                  - ((a * n : Nat) : Int))))
              = (q.flatMap (fun a => xs.map (fun y =>
                  a * n + (pynorm y (n : Int)).toNat))).map (fun x : Nat => (x : Int)) := by
            rw [List.map_flatMap]
            refine flatMap_congr_mem _ _ _ (fun a _ => ?_)
            rw [List.map_map]
            refine List.map_congr_left (fun y hy => ?_)
            have hb := hentries' y hy
            have e : (((a + 1) * n : Nat) : Int) - ((a * n : Nat) : Int) = (n : Int) := by
              push_cast; ring
            rw [e]
            simp only [Function.comp]
            push_cast
            omega
          rw [eidx]
          have hbound : ∀ y ∈ q.flatMap (fun a => xs.map (fun y =>
              a * n + (pynorm y (n : Int)).toNat)), y < N * n := by
            intro y hy
            obtain ⟨x, hx, hy2⟩ := List.mem_flatMap.mp hy
            obtain ⟨y0, hy0, rfl⟩ := List.mem_map.mp hy2
            have hb := hentries' y0 hy0
            have hxN := h2 x hx
            have e : (x + 1) * n = x * n + n := by ring
            have e2 : (x + 1) * n ≤ N * n := Nat.mul_le_mul_right n (by omega)
            omega
          have hlen2 : (q.flatMap (fun a => xs.map (fun y =>
                a * n + (pynorm y (n : Int)).toNat))).length = q.length * xs.length :=
            flatMap_length_uniform q _ _ (fun x _ => by simp)
          rw [gather_denseContent rest (N * n) data _ hdata2 hbound]
          simp only [Except.bind, bind]
          obtain ⟨ha6, hb6⟩ := h6a rfl
          rw [ih rest (N * n) data _ (some (q.flatMap (fun a => List.range xs.length)))
            hdata2 hbound
            (by rw [hlen2]
                exact Nat.mul_le_mul h3 (by omega))
            h4' h5
            (fun heq => absurd heq (by simp))
            (fun ctx2 heq => by
              have hc2 := Option.some.inj heq
              subst hc2
              refine ⟨by simp at ha6; omega, ?_, ?_, ?_⟩
              · rw [flatMap_length_uniform q _ xs.length (fun x _ => by simp), hlen2]
              · intro _ cv hcv
                obtain ⟨x, hx, hmem⟩ := List.mem_flatMap.mp hcv
                rw [← hxsL]
                exact List.mem_range.mp hmem
              · intro h2a
                have hts3 : ts.length = 2 := by
                  have hle := arrCount_le_length ts
                  simp at ha6
                  omega
                have hq1 : q.length = 1 := hb6 (by simp [hts3])
                obtain ⟨y0, rfl⟩ := List.length_eq_one.mp hq1
                rw [hlen2, hq1]
                simp)]
          rw [hlen2]
          have hQ : (ctxPairs (q.flatMap (fun a => xs.map (fun y =>
                  a * n + (pynorm y (n : Int)).toNat)))
                (some (q.flatMap (fun a => List.range xs.length)))).flatMap
                (fun p => (rowOffsets rest ts p.2).map (fun w =>
                  p.1 * (rest.take ts.length).prod + w))
              = (ctxPairs q none).flatMap (fun p =>
                (rowOffsets (n :: rest) (.arr xs :: ts) p.2).map (fun w =>
                  p.1 * (n * (rest.take ts.length).prod) + w)) := by
            simp only [ctxPairs, List.map_flatMap, List.flatMap_map, rowOffsets_arr_none]
            rw [zip_flatMap_uniform q _ _ xs.length (fun x _ => by simp) (fun x _ => by simp)]
            rw [List.flatMap_assoc]
            refine flatMap_congr_mem _ _ _ (fun x _ => ?_)
            rw [map_eq_range_getD xs (fun y => x * n + (pynorm y (n : Int)).toNat) 0]
            rw [List.zip_map', List.flatMap_map]
            simp only [List.map_flatMap, List.map_map]
            refine flatMap_congr_mem _ _ _ (fun j _ => ?_)
            exact List.map_congr_left (fun w _ => by
              simp only [Function.comp]
              ring)
          rw [hQ]
          simp only [List.length_cons, List.take_succ_cons, List.drop_succ_cons,
            List.prod_cons, Nat.mul_assoc, emitDims_arr_false, Option.isSome, wrapNDA]
        | some ctx =>
          obtain ⟨hts2, hclen, hcval, hcrng⟩ := h6b ctx rfl
          simp only [Option.isSome_some] at h5
          simp only [tvalid, Bool.and_eq_true, Bool.true_or, Bool.and_true,
            decide_eq_true_eq, List.all_eq_true] at h5
          obtain ⟨⟨hxsL, hentries⟩, h5⟩ := h5
          have hentries' : ∀ y ∈ xs, 0 ≤ pynorm y (n : Int) ∧ pynorm y (n : Int) < (n : Int) :=
            fun y hy => by simpa using hentries y hy
          have h1cnt : 1 ≤ arrCount (.arr xs :: ts) := by rw [arrCount_cons_arr]; omega
          have hcval' : ∀ cv ∈ ctx, cv < xs.length := fun cv hcv => by
            rw [hxsL]; exact hcval h1cnt cv hcv
          rw [show mkState N (n :: rest) data q
              = NDA.jag (q.map (fun x : Nat => ((x * n : Nat) : Int)))
                  (q.map (fun x : Nat => (((x + 1) * n : Nat) : Int)))
                  (denseContent (N * n) rest data) from rfl]
          simp only [getitem_next]
          rw [getitem_intarray_some_loop_ok _ _ xs (by simp) ctx 0 _ _
            (by simp) (by simp) (by simp [hclen])
            (fun k hk => by
              have hkq : k < q.length := by omega
              simp only [Nat.zero_add, List.get_eq_getElem]
              have hgm : ctx[k] < xs.length := hcval' ctx[k] (List.getElem_mem hk)
              have hxm : xs.getD ctx[k] 0 ∈ xs := by
                rw [List.getD_eq_getElem xs 0 hgm]
                exact List.getElem_mem hgm
              have hbb := hentries' _ hxm
              refine ⟨hgm, ?_, ?_⟩
              · rw [getD_map' q _ k 0 0 hkq, getD_map' q _ k 0 0 hkq]
                have e : (((q.getD k 0 + 1) * n : Nat) : Int)
                    - ((q.getD k 0 * n : Nat) : Int) = (n : Int) := by push_cast; ring
                rw [e]
                exact hbb.1
              · rw [getD_map' q _ k 0 0 hkq, getD_map' q _ k 0 0 hkq]
                have e : (((q.getD k 0 + 1) * n : Nat) : Int)
                    - ((q.getD k 0 * n : Nat) : Int) = (n : Int) := by push_cast; ring
                rw [e]
                exact hbb.2)]
          simp only [List.take_zero, List.nil_append, Nat.zero_add, List.length_map,
            hclen, List.drop_replicate, Nat.sub_self, List.replicate_zero, List.append_nil,
            enumFrom_zero_map]
          have eidx : (List.range q.length).map (fun k =>
                (q.map (fun x : Nat => ((x * n : Nat) : Int))).getD k 0
                  + pynorm (xs.getD (ctx.getD k 0) 0)
                    ((q.map (fun x : Nat => (((x + 1) * n : Nat) : Int))).getD k 0
                      - (q.map (fun x : Nat => ((x * n : Nat) : Int))).getD k 0))
              = ((List.range q.length).map (fun k =>
                  q.getD k 0 * n + (pynorm (xs.getD (ctx.getD k 0) 0) (n : Int)).toNat)).map
                    (fun x : Nat => (x : Int)) := by
            rw [List.map_map]
            refine List.map_congr_left (fun k hk => ?_)
            have hkq : k < q.length := List.mem_range.mp hk
            have hgm : ctx.getD k 0 < xs.length := by
              refine hcval' (ctx.getD k 0) ?_
              rw [List.getD_eq_getElem ctx 0 (by omega)]
              exact List.getElem_mem (by omega)
            have hxm : xs.getD (ctx.getD k 0) 0 ∈ xs := by
              rw [List.getD_eq_getElem xs 0 hgm]
              exact List.getElem_mem hgm
            have hbb := hentries' _ hxm
            rw [getD_map' q _ k 0 0 hkq, getD_map' q _ k 0 0 hkq]
            have e : (((q.getD k 0 + 1) * n : Nat) : Int)
                - ((q.getD k 0 * n : Nat) : Int) = (n : Int) := by push_cast; ring
            rw [e]
            simp only [Function.comp]
            push_cast
            omega
          rw [eidx]
          simp only [Except.bind, bind, List.map_id']
          have hbound2 : ∀ y ∈ (List.range q.length).map (fun k =>
              q.getD k 0 * n + (pynorm (xs.getD (ctx.getD k 0) 0) (n : Int)).toNat), y < N * n := by
            intro y hy
            obtain ⟨k, hk, rfl⟩ := List.mem_map.mp hy
            have hkq : k < q.length := List.mem_range.mp hk
            have hgm : ctx.getD k 0 < xs.length := by
              refine hcval' (ctx.getD k 0) ?_
              rw [List.getD_eq_getElem ctx 0 (by omega)]
              exact List.getElem_mem (by omega)
            have hxm : xs.getD (ctx.getD k 0) 0 ∈ xs := by
              rw [List.getD_eq_getElem xs 0 hgm]
              exact List.getElem_mem hgm
            have hbb := hentries' _ hxm
            have hqk : q.getD k 0 < N := by
              refine h2 (q.getD k 0) ?_
              rw [List.getD_eq_getElem q 0 hkq]
              exact List.getElem_mem hkq
            have e : (q.getD k 0 + 1) * n = q.getD k 0 * n + n := by ring
            have e2 : (q.getD k 0 + 1) * n ≤ N * n := Nat.mul_le_mul_right n (by omega)
            omega
          rw [gather_denseContent rest (N * n) data _ hdata2 hbound2]
          simp only [Except.bind, bind]
          have hq2len : ((List.range q.length).map (fun k =>
              q.getD k 0 * n + (pynorm (xs.getD (ctx.getD k 0) 0) (n : Int)).toNat)).length
              = q.length := by simp
          rw [ih rest (N * n) data _ (some (List.range q.length)) hdata2 hbound2
            (by
              rw [hq2len]
              by_cases hq0 : q.length = 0
              · omega
              · obtain ⟨cv, hcv⟩ := List.exists_mem_of_length_pos (l := ctx) (by omega)
                have hcL := hcval' cv hcv
                obtain ⟨y, hy⟩ := List.exists_mem_of_length_pos (l := xs) (by omega)
                have hbb := hentries' y hy
                have hn1 : 0 < n := by omega
                exact le_trans h3 (Nat.le_mul_of_pos_right N hn1))
            h4' h5
            (fun heq => absurd heq (by simp))
            (fun ctx2 heq => by
              have hc2 := Option.some.inj heq
              subst hc2
              refine ⟨by simp at hts2; omega, by simp, ?_, ?_⟩
              · intro h1a cv hcv
                have h2cnt : 2 ≤ arrCount (.arr xs :: ts) := by
                  rw [arrCount_cons_arr]; omega
                have hctxeq := hcrng h2cnt
                refine hcval h1cnt cv ?_
                rw [hctxeq]
                simpa using hcv
              · intro _
                simp)]
          have hQ : (ctxPairs ((List.range q.length).map (fun k =>
                  q.getD k 0 * n + (pynorm (xs.getD (ctx.getD k 0) 0) (n : Int)).toNat))
                (some (List.range q.length))).flatMap
                (fun p => (rowOffsets rest ts p.2).map (fun w =>
                  p.1 * (rest.take ts.length).prod + w))
              = (ctxPairs q (some ctx)).flatMap (fun p =>
                (rowOffsets (n :: rest) (.arr xs :: ts) p.2).map (fun w =>
                  p.1 * (n * (rest.take ts.length).prod) + w)) := by
            simp only [ctxPairs]
            rw [List.zip_map']
            rw [List.flatMap_map]
            rw [zip_as_range q (ctx.map some) 0 none (by simp [hclen])]
            rw [List.flatMap_map]
            by_cases harr : arrCount ts = 0
            · refine flatMap_congr_mem _ _ _ (fun k hk => ?_)
              have hkq : k < q.length := List.mem_range.mp hk
              simp only [Function.comp]
              rw [getD_map' ctx some k none 0 (by omega)]
              rw [rowOffsets_arr_some]
              rw [rowOffsets_const ts rest harr (some (ctx.getD k 0)) (some k)]
              rw [List.map_map]
              exact List.map_congr_left (fun w _ => by
                simp only [Function.comp]
                ring)
            · have h2cnt : 2 ≤ arrCount (.arr xs :: ts) := by
                rw [arrCount_cons_arr]; omega
              rw [show ctx = List.range q.length from hcrng h2cnt]
              refine flatMap_congr_mem _ _ _ (fun k hk => ?_)
              have hkq : k < q.length := List.mem_range.mp hk
              simp only [Function.comp]
              rw [getD_map' (List.range q.length) some k none 0 (by simpa using hkq)]
              rw [List.getD_eq_getElem (List.range q.length) 0 (by simpa using hkq),
                List.getElem_range]
              rw [rowOffsets_arr_some, List.map_map]
              exact List.map_congr_left (fun w _ => by
                simp only [Function.comp]
                ring)
          rw [hq2len, hQ]
          simp only [List.length_cons, List.take_succ_cons, List.drop_succ_cons,
            List.prod_cons, Nat.mul_assoc, Option.isSome_some, emitDims_arr_true]

/-! ### Nested-list views of regular states -/

theorem slice_of_range_map {β : Type} (g : Nat → β) (K lo hi : Nat) (hlo : lo ≤ hi)
    (hhi : hi ≤ K) :
    pySlice ((List.range K).map g) ((lo : Nat) : Int) ((hi : Nat) : Int)
      = (List.range (hi - lo)).map (fun j => g (lo + j)) := by
  rw [pySlice_nat _ lo hi (by simp; omega) (by simp; omega)]
  apply List.ext_getElem
  · simp
    omega
  · intro j h1 h2
    simp only [List.getElem_drop, List.getElem_take, List.getElem_map, List.getElem_range]

theorem denseTree_block (ds' : List Nat) (n : Nat) (data : List Int) (x : Nat) :
    Tree.node ((List.range n).map (fun j =>
        denseTree ds' (segment data ((x * n + j) * ds'.prod) ds'.prod)))
      = denseTree (n :: ds') (segment data (x * (n * ds'.prod)) (n * ds'.prod)) := by
  simp only [denseTree]
  refine congrArg Tree.node (List.map_congr_left (fun j hj => ?_))
  have hjn : j < n := List.mem_range.mp hj
  rw [segment_segment data (x * (n * ds'.prod)) (n * ds'.prod) (j * ds'.prod) ds'.prod
    (by
      have e : (j + 1) * ds'.prod ≤ n * ds'.prod := Nat.mul_le_mul_right _ (by omega)
      have e2 : (j + 1) * ds'.prod = j * ds'.prod + ds'.prod := by ring
      omega)]
  refine congrArg _ (congrArg₂ _ (by ring) rfl)

theorem denseContent_treeList : ∀ (ds : List Nat) (M : Nat) (data : List Int),
    data.length = M * ds.prod →
    (denseContent M ds data).treeList
      = (List.range M).map (fun i => denseTree ds (segment data (i * ds.prod) ds.prod)) := by
  intro ds
  induction ds with
  | nil =>
    intro M data hdata
    simp only [denseContent, NDA.treeList, List.prod_nil]
    apply List.ext_getElem
    · simp at hdata ⊢
      omega
    · intro i h1 h2
      have hiM : i < M := by simpa using h2
      have hid : i < data.length := by simp at h1; omega
      simp only [List.getElem_map, List.getElem_range]
      rw [Nat.mul_one, segment_one data i 0 hid]
      simp only [denseTree]
      rw [List.getD_eq_getElem data 0 hid]
      rfl
  | cons n rest ih =>
    intro M data hdata
    simp only [denseContent, NDA.treeList]
    rw [ih (M * n) data (by rw [hdata, List.prod_cons]; ring)]
    rw [List.zip_map']
    rw [List.map_map]
    refine List.map_congr_left (fun i hi => ?_)
    have hiM : i < M := List.mem_range.mp hi
    simp only [Function.comp]
    rw [slice_of_range_map _ (M * n) (i * n) ((i + 1) * n)
      (Nat.mul_le_mul_right n (by omega)) (Nat.mul_le_mul_right n (by omega))]
    have e : (i + 1) * n - i * n = n := by
      have e2 : (i + 1) * n = i * n + n := by ring
      omega
    rw [e, List.prod_cons]
    exact denseTree_block rest n data i

theorem mkState_treeList (N : Nat) (ds : List Nat) (data : List Int) (q : List Nat)
    (hdata : data.length = N * ds.prod) (hq : ∀ x ∈ q, x < N) :
    (mkState N ds data q).treeList
      = q.map (fun x => denseTree ds (segment data (x * ds.prod) ds.prod)) := by
  match ds with
  | [] =>
    simp only [mkState, NDA.treeList, List.prod_nil, List.map_map]
    refine List.map_congr_left (fun x hx => ?_)
    have hxd : x < data.length := by
      have := hq x hx
      simp at hdata
      omega
    simp only [Function.comp]
    rw [Nat.mul_one, segment_one data x 0 hxd]
    rfl
  | n :: rest =>
    simp only [mkState, NDA.treeList]
    rw [denseContent_treeList rest (N * n) data (by rw [hdata, List.prod_cons]; ring)]
    rw [List.zip_map']
    rw [List.map_map]
    refine List.map_congr_left (fun x hx => ?_)
    have hxN : x < N := hq x hx
    simp only [Function.comp]
    rw [slice_of_range_map _ (N * n) (x * n) ((x + 1) * n)
      (Nat.mul_le_mul_right n (by omega)) (Nat.mul_le_mul_right n (by omega))]
    have e : (x + 1) * n - x * n = n := by
      have e2 : (x + 1) * n = x * n + n := by ring
      omega
    rw [e, List.prod_cons]
    exact denseTree_block rest n data x

theorem wrap_mkState_treeList :
    ∀ (ws : List Nat) (R N' : Nat) (ds' : List Nat) (data : List Int) (qf : List Nat),
    data.length = N' * ds'.prod →
    (∀ x ∈ qf, x < N') →
    qf.length = R * ws.prod →
    (wrapNDA R ws (mkState N' ds' data qf)).treeList
      = (List.range R).map (fun i => denseTree (ws ++ ds')
          ((segment qf (i * ws.prod) ws.prod).flatMap (fun x =>
            segment data (x * ds'.prod) ds'.prod))) := by
  intro ws
  induction ws with
  | nil =>
    intro R N' ds' data qf hdata hq hlen
    simp only [wrapNDA, List.prod_nil, List.nil_append]
    rw [mkState_treeList N' ds' data qf hdata hq]
    apply List.ext_getElem
    · simp only [List.length_map, List.length_range]
      simp only [List.prod_nil, Nat.mul_one] at hlen
      exact hlen
    · intro i h1 h2
      have hiq : i < qf.length := by simpa using h1
      simp only [List.getElem_map, List.getElem_range]
      rw [Nat.mul_one, segment_one qf i 0 hiq]
      simp only [List.flatMap_cons, List.flatMap_nil, List.append_nil]
      rw [List.getD_eq_getElem qf 0 hiq]
  | cons m ws ihw =>
    intro R N' ds' data qf hdata hq hlen
    simp only [wrapNDA, NDA.treeList]
    rw [ihw (R * m) N' ds' data qf hdata hq (by rw [hlen, List.prod_cons]; ring)]
    rw [List.zip_map', List.map_map]
    refine List.map_congr_left (fun i hi => ?_)
    have hiR : i < R := List.mem_range.mp hi
    simp only [Function.comp]
    rw [slice_of_range_map _ (R * m) (i * m) ((i + 1) * m)
      (Nat.mul_le_mul_right m (by omega)) (Nat.mul_le_mul_right m (by omega))]
    have e : (i + 1) * m - i * m = m := by
      have e2 : (i + 1) * m = i * m + m := by ring
      omega
    rw [e]
    simp only [List.cons_append, denseTree, List.prod_cons, List.append_eq]
    refine congrArg Tree.node (List.map_congr_left (fun j hj => ?_))
    have hjm : j < m := List.mem_range.mp hj
    refine congrArg _ ?_
    rw [List.prod_append]
    rw [segment_flatMap_uniform (segment qf (i * (m * ws.prod)) (m * ws.prod)) _ ds'.prod
      (fun x hx => by
        have hx1 : x ∈ qf := by
          simp only [segment] at hx
          exact List.mem_of_mem_drop (List.mem_of_mem_take hx)
        have hxN := hq x hx1
        refine segment_length data (x * ds'.prod) ds'.prod ?_
        have e2 : (x + 1) * ds'.prod ≤ N' * ds'.prod := Nat.mul_le_mul_right _ (by omega)
        have e3 : (x + 1) * ds'.prod = x * ds'.prod + ds'.prod := by ring
        omega)
      j ws.prod]
    rw [segment_segment qf (i * (m * ws.prod)) (m * ws.prod) (j * ws.prod) ws.prod
      (by
        have e2 : (j + 1) * ws.prod ≤ m * ws.prod := Nat.mul_le_mul_right _ (by omega)
        have e3 : (j + 1) * ws.prod = j * ws.prod + ws.prod := by ring
        omega)]
    have eseg : i * (m * ws.prod) + j * ws.prod = (i * m + j) * ws.prod := by ring
    rw [eseg]

theorem pySlice_map {α β : Type} (f : α → β) (l : List α) (lo hi : Int) :
    pySlice (l.map f) lo hi = (pySlice l lo hi).map f := by
  simp only [pySlice, List.length_map, List.map_take, List.map_drop]

theorem pySlice_zip {α β : Type} (s : List α) (t : List β) (lo hi : Int)
    (hlen : s.length = t.length) :
    (pySlice s lo hi).zip (pySlice t lo hi) = pySlice (s.zip t) lo hi := by
  simp only [pySlice, List.length_zip, ← hlen, Nat.min_self]
  apply List.ext_getElem
  · simp
    omega
  · intro i h1 h2
    simp only [List.getElem_zip, List.getElem_drop, List.getElem_take]

theorem sliceRange_treeList (a : NDA) (lo hi : Int)
    (hwf : ∀ s t c, a = NDA.jag s t c → s.length = t.length) :
    (a.sliceRange lo hi).treeList = pySlice a.treeList lo hi := by
  match a with
  | .flat xs =>
    simp only [NDA.sliceRange, NDA.treeList]
    rw [pySlice_map]
  | .jag s t c =>
    have hlen := hwf s t c rfl
    simp only [NDA.sliceRange, NDA.treeList]
    rw [pySlice_zip s t lo hi hlen, ← pySlice_map]

theorem rowOffsets_length : ∀ (ts : List NTerm) (ds : List Nat) (k : Option Nat),
    ts.length ≤ ds.length →
    (rowOffsets ds ts k).length = (emitDims ds ts k.isSome).prod := by
  intro ts
  induction ts with
  | nil =>
    intro ds k _
    have e0 : rowOffsets ds [] k = [0] := by cases ds <;> rfl
    have e1 : emitDims ds [] k.isSome = [] := by cases ds <;> rfl
    rw [e0, e1]
    rfl
  | cons t ts ih =>
    intro ds k hlen
    match ds with
    | [] => simp at hlen
    | n :: rest =>
      match t with
      | .int h =>
        rw [rowOffsets_int, emitDims_int]
        simp only [List.length_map]
        exact ih rest k (by simpa using hlen)
      | .slice3 a b c =>
        rw [rowOffsets_slice, emitDims_slice]
        rw [flatMap_length_uniform _ _ ((rowOffsets rest ts k).length) (fun j _ => by simp)]
        rw [List.prod_cons, ih rest k (by simpa using hlen)]
      | .arr xs =>
        cases k with
        | none =>
          rw [rowOffsets_arr_none]
          rw [flatMap_length_uniform _ _ ((emitDims rest ts true).prod) (fun j _ => by
            simp only [List.length_map]
            exact ih rest (some j) (by simpa using hlen))]
          simp only [List.length_range, Option.isSome_none]
          rw [emitDims_arr_false, List.prod_cons]
        | some cv =>
          rw [rowOffsets_arr_some]
          simp only [List.length_map, Option.isSome_some]
          rw [emitDims_arr_true]
          have hihcv := ih rest (some cv) (by simpa using hlen)
          simp only [Option.isSome_some] at hihcv
          exact hihcv

theorem rowOffsets_lt (L : Nat) : ∀ (ts : List NTerm) (ds : List Nat) (k : Option Nat),
    ts.length ≤ ds.length →
    tvalid L k.isSome ts ds = true →
    (∀ cv, k = some cv → cv < L) →
    ∀ w ∈ rowOffsets ds ts k, w < (ds.take ts.length).prod := by
  intro ts
  induction ts with
  | nil =>
    intro ds k _ _ _ w hw
    have e0 : rowOffsets ds [] k = [0] := by cases ds <;> rfl
    rw [e0] at hw
    simp at hw
    subst hw
    simp
  | cons t ts ih =>
    intro ds k hlen htv hk w hw
    match ds with
    | [] => simp at hlen
    | n :: rest =>
      simp only [List.length_cons, List.take_succ_cons, List.prod_cons]
      match t with
      | .int h =>
        rw [rowOffsets_int] at hw
        obtain ⟨w', hw', rfl⟩ := List.mem_map.mp hw
        simp only [tvalid, Bool.and_eq_true, decide_eq_true_eq] at htv
        obtain ⟨⟨hh0, hhn⟩, htv⟩ := htv
        have ihw := ih rest k (by simpa using hlen) htv hk w' hw'
        have e : (h.toNat + 1) * (rest.take ts.length).prod ≤ n * (rest.take ts.length).prod :=
          Nat.mul_le_mul_right _ (by omega)
        have e2 : (h.toNat + 1) * (rest.take ts.length).prod
            = h.toNat * (rest.take ts.length).prod + (rest.take ts.length).prod := by ring
        omega
      | .slice3 a b c =>
        rw [rowOffsets_slice] at hw
        obtain ⟨j, hj, hw2⟩ := List.mem_flatMap.mp hw
        obtain ⟨w', hw', rfl⟩ := List.mem_map.mp hw2
        simp only [tvalid, Bool.and_eq_true, decide_eq_true_eq] at htv
        obtain ⟨hc0, htv⟩ := htv
        have hb := slice3_rowPositions_bounds (by omega : (0 : Int) ≤ (n : Int)) hj
        have ihw := ih rest k (by simpa using hlen) htv hk w' hw'
        have e : (j.toNat + 1) * (rest.take ts.length).prod ≤ n * (rest.take ts.length).prod :=
          Nat.mul_le_mul_right _ (by omega)
        have e2 : (j.toNat + 1) * (rest.take ts.length).prod
            = j.toNat * (rest.take ts.length).prod + (rest.take ts.length).prod := by ring
        omega
      | .arr xs =>
        cases k with
        | none =>
          rw [rowOffsets_arr_none] at hw
          obtain ⟨j, hj, hw2⟩ := List.mem_flatMap.mp hw
          obtain ⟨w', hw', rfl⟩ := List.mem_map.mp hw2
          simp only [Option.isSome_none, tvalid, Bool.and_eq_true, Bool.false_or,
            decide_eq_true_eq, List.all_eq_true] at htv
          obtain ⟨⟨⟨hxsL, hLn⟩, hent⟩, htv⟩ := htv
          have hjL : j < xs.length := List.mem_range.mp hj
          have hxm : xs.getD j 0 ∈ xs := by
            rw [List.getD_eq_getElem xs 0 hjL]
            exact List.getElem_mem hjL
          have hb : 0 ≤ pynorm (xs.getD j 0) (n : Int)
              ∧ pynorm (xs.getD j 0) (n : Int) < (n : Int) := by simpa using hent _ hxm
          have ihw := ih rest (some j) (by simpa using hlen) htv
            (fun cv hcv => by
              have hcj := Option.some.inj hcv
              omega) w' hw'
          have e : ((pynorm (xs.getD j 0) (n : Int)).toNat + 1) * (rest.take ts.length).prod
              ≤ n * (rest.take ts.length).prod := Nat.mul_le_mul_right _ (by omega)
          have e2 : ((pynorm (xs.getD j 0) (n : Int)).toNat + 1) * (rest.take ts.length).prod
              = (pynorm (xs.getD j 0) (n : Int)).toNat * (rest.take ts.length).prod
                + (rest.take ts.length).prod := by ring
          omega
        | some cv =>
          rw [rowOffsets_arr_some] at hw
          obtain ⟨w', hw', rfl⟩ := List.mem_map.mp hw
          simp only [Option.isSome_some, tvalid, Bool.and_eq_true, Bool.true_or,
            Bool.and_true, decide_eq_true_eq, List.all_eq_true] at htv
          obtain ⟨⟨hxsL, hent⟩, htv⟩ := htv
          have hcL : cv < L := hk cv rfl
          have hcx : cv < xs.length := by omega
          have hxm : xs.getD cv 0 ∈ xs := by
            rw [List.getD_eq_getElem xs 0 hcx]
            exact List.getElem_mem hcx
          have hb : 0 ≤ pynorm (xs.getD cv 0) (n : Int)
              ∧ pynorm (xs.getD cv 0) (n : Int) < (n : Int) := by simpa using hent _ hxm
          have ihw := ih rest (some cv) (by simpa using hlen) htv
            (fun cv2 hcv2 => by
              have hcj := Option.some.inj hcv2
              omega) w' hw'
          have e : ((pynorm (xs.getD cv 0) (n : Int)).toNat + 1) * (rest.take ts.length).prod
              ≤ n * (rest.take ts.length).prod := Nat.mul_le_mul_right _ (by omega)
          have e2 : ((pynorm (xs.getD cv 0) (n : Int)).toNat + 1) * (rest.take ts.length).prod
              = (pynorm (xs.getD cv 0) (n : Int)).toNat * (rest.take ts.length).prod
                + (rest.take ts.length).prod := by ring
          omega

/-! ### Entry normalization: raw validity transfers to the normalized terms -/

theorem truePositions_length (bs : List Bool) :
    (truePositions bs).length = countTrue bs := by
  simp only [truePositions, List.length_map, countTrue]
  induction bs with
  | nil => rfl
  | cons b t ih =>
    simp only [List.length_cons, List.range_succ_eq_map, List.filter_cons,
      List.getD_cons_zero]
    rw [List.filter_map]
    simp only [Function.comp_def, List.getD_cons_succ]
    rw [List.countP_cons]
    cases b
    · simp only [Bool.false_eq_true, if_false, List.length_map]
      rw [ih]
      simp
    · simp only [if_true, List.length_cons, List.length_map]
      rw [ih]

theorem truePositions_bounds (bs : List Bool) :
    ∀ x ∈ truePositions bs, 0 ≤ x ∧ x < (bs.length : Int) := by
  intro x hx
  obtain ⟨i, hi, rfl⟩ := List.mem_map.mp hx
  have hir : i < bs.length := List.mem_range.mp (List.mem_of_mem_filter hi)
  omega

theorem pyGet_neg_one {α : Type} (xs : List α) (d : α) (h : xs ≠ []) :
    pyGet xs (-1) = .ok (xs.getD (xs.length - 1) d) := by
  have hl : 0 < xs.length := List.length_pos.mpr h
  simp only [pyGet]
  rw [if_pos (by omega : (-1 : Int) < 0)]
  have e : ((-1 : Int) + xs.length).toNat = xs.length - 1 := by omega
  rw [e, List.get?_eq_getElem?, List.getElem?_eq_getElem (by omega)]
  show (if (0 : Int) ≤ -1 + xs.length then Except.ok xs[xs.length - 1]
      else Except.error Err.indexError) = Except.ok (xs.getD (xs.length - 1) d)
  rw [if_pos (by omega : (0 : Int) ≤ -1 + xs.length),
    List.getD_eq_getElem xs d (by omega)]

theorem denseContent_wf (M : Nat) (rest : List Nat) (data : List Int) :
    ∀ s t c, denseContent M rest data = .jag s t c → s.length = t.length := by
  intro s t c h
  match rest with
  | [] => simp [denseContent] at h
  | n :: more =>
    simp only [denseContent, NDA.jag.injEq] at h
    obtain ⟨hs, ht, _⟩ := h
    rw [← hs, ← ht]
    simp

theorem mkState_wf (N : Nat) (ds : List Nat) (data : List Int) (q : List Nat) :
    ∀ s t c, mkState N ds data q = .jag s t c → s.length = t.length := by
  intro s t c h
  match ds with
  | [] => simp [mkState] at h
  | n :: more =>
    simp only [mkState, NDA.jag.injEq] at h
    obtain ⟨hs, ht, _⟩ := h
    rw [← hs, ← ht]
    simp

theorem wrapNDA_wf (R : Nat) (ws : List Nat) (inner : NDA)
    (hinner : ∀ s t c, inner = .jag s t c → s.length = t.length) :
    ∀ s t c, wrapNDA R ws inner = .jag s t c → s.length = t.length := by
  match ws with
  | [] => simpa [wrapNDA] using hinner
  | m :: ws' =>
    intro s t c h
    simp only [wrapNDA, NDA.jag.injEq] at h
    obtain ⟨hs, ht, _⟩ := h
    rw [← hs, ← ht]
    simp

theorem rawValid_tvalid (L : Nat) : ∀ (ts : List RawTerm) (ds : List Nat) (advSet : Bool),
    rawValid L advSet ts ds = true →
    tvalid L advSet (ts.map (normalizeTerm L)) ds = true := by
  intro ts
  induction ts with
  | nil =>
    intro ds advSet _
    cases ds <;> rfl
  | cons t ts ih =>
    intro ds advSet hrv
    match ds with
    | [] => exact absurd hrv (by cases t <;> simp [rawValid])
    | n :: rest =>
      match t with
      | .int h =>
        simp only [rawValid, Bool.and_eq_true, Bool.or_eq_true, decide_eq_true_eq] at hrv
        obtain ⟨⟨⟨hh0, hhn⟩, hL⟩, hrv⟩ := hrv
        by_cases hL0 : L = 0
        · subst hL0
          simp only [List.map_cons, normalizeTerm]
          rw [if_neg (show ¬ ((0 : Nat) ≠ 0) from by omega)]
          simp only [tvalid, Bool.and_eq_true, decide_eq_true_eq]
          refine ⟨⟨hh0, hhn⟩, ?_⟩
          apply ih rest advSet
          simpa using hrv
        · simp only [List.map_cons, normalizeTerm]
          rw [if_pos hL0]
          simp only [tvalid, Bool.and_eq_true, Bool.or_eq_true, decide_eq_true_eq,
            List.all_eq_true, List.length_replicate]
          refine ⟨⟨⟨trivial, ?_⟩, ?_⟩, ?_⟩
          · rcases hL with (hx | hx) | hx
            · exact absurd hx hL0
            · exact Or.inl hx
            · exact Or.inr hx
          · intro x hx
            rw [List.eq_of_mem_replicate hx]
            have hnn : ¬ h < 0 := by omega
            simp only [pynorm, if_neg hnn, decide_eq_true_eq]
            exact ⟨hh0, hhn⟩
          · refine ih rest true ?_
            have e : (advSet || decide (¬ (L = 0))) = true := by simp [hL0]
            rw [e] at hrv
            exact hrv
      | .slice3 a b c =>
        simp only [rawValid, Bool.and_eq_true, decide_eq_true_eq] at hrv
        obtain ⟨hc0, hrv⟩ := hrv
        simp only [List.map_cons, normalizeTerm, tvalid, Bool.and_eq_true, decide_eq_true_eq]
        exact ⟨hc0, ih rest advSet hrv⟩
      | .arr xs =>
        simp only [rawValid, Bool.and_eq_true, Bool.or_eq_true, decide_eq_true_eq,
          List.all_eq_true] at hrv
        obtain ⟨⟨⟨hlen1, hLn⟩, hent⟩, hrv⟩ := hrv
        by_cases h1 : xs.length = 1
        · obtain ⟨a0, rfl⟩ := List.length_eq_one.mp h1
          simp only [List.map_cons, normalizeTerm]
          rw [if_pos (show ([a0] : List Int).length = 1 from rfl)]
          simp only [tvalid, Bool.and_eq_true, Bool.or_eq_true, decide_eq_true_eq,
            List.all_eq_true, List.length_replicate]
          refine ⟨⟨⟨trivial, hLn⟩, ?_⟩, ih rest true hrv⟩
          intro x hx
          rw [List.eq_of_mem_replicate hx]
          simpa using hent a0 (by simp)
        · have hlenL : xs.length = L := by
            rcases hlen1 with hx | hx
            · exact absurd hx h1
            · exact hx
          simp only [List.map_cons, normalizeTerm]
          rw [if_neg h1]
          simp only [tvalid, Bool.and_eq_true, Bool.or_eq_true, decide_eq_true_eq,
            List.all_eq_true]
          exact ⟨⟨⟨hlenL, hLn⟩, fun x hx => by simpa using hent x hx⟩, ih rest true hrv⟩
      | .mask bs =>
        simp only [rawValid, Bool.and_eq_true, Bool.or_eq_true, decide_eq_true_eq] at hrv
        obtain ⟨⟨⟨hbn, hct⟩, hLn⟩, hrv⟩ := hrv
        simp only [List.map_cons, normalizeTerm]
        simp only [tvalid, Bool.and_eq_true, Bool.or_eq_true, decide_eq_true_eq,
          List.all_eq_true]
        refine ⟨⟨⟨by rw [truePositions_length, hct], hLn⟩, ?_⟩, ih rest true hrv⟩
        intro x hx
        have hb := truePositions_bounds bs x hx
        have hnn : ¬ x < 0 := by omega
        simp only [pynorm, if_neg hnn, decide_eq_true_eq]
        omega

/-! ### Stripping the synthetic outer row -/

theorem getitem_enter_eq (array : NDA) (slices : List RawTerm)
    (h : ¬ slices.isEmpty = true) :
    getitem_enter array slices
      = (getitem_next (.jag [0] [(array.len : Int)] array)
          (slices.map (normalizeTerm (arraylen slices))) none).bind enterStrip := by
  simp only [getitem_enter, enterStrip]
  rw [if_neg h]
  rfl

theorem enterStrip_tree (E : List Nat) (P' : Nat) (ds' : List Nat) (data : List Int)
    (q' : List Nat)
    (hdata : data.length = P' * ds'.prod)
    (hq : ∀ x ∈ q', x < P')
    (hqlen : q'.length = E.prod) :
    (enterStrip (wrapNDA 1 E (mkState P' ds' data q'))).map EnterRes.toTree
      = .ok (denseTree (E ++ ds')
          (q'.flatMap (fun x => segment data (x * ds'.prod) ds'.prod))) := by
  have htree := wrap_mkState_treeList E 1 P' ds' data q' hdata hq (by rw [hqlen]; ring)
  rw [show List.range 1 = [0] from rfl] at htree
  simp only [List.map_cons, List.map_nil, Nat.zero_mul] at htree
  rw [← hqlen, segment_full] at htree
  match E with
  | [] =>
    match ds' with
    | [] =>
      simp only [wrapNDA, mkState, enterStrip]
      have hq1 : q'.length = 1 := by simpa using hqlen
      obtain ⟨w0, rfl⟩ := List.length_eq_one.mp hq1
      simp only [List.map_cons, List.map_nil]
      rw [show pyGet [data.getD w0 0] 0 = .ok (data.getD w0 0) from rfl]
      simp only [Except.bind, bind, Except.map, EnterRes.toTree]
      simp only [List.nil_append, List.prod_nil, Nat.mul_one, List.flatMap_cons,
        List.flatMap_nil, List.append_nil]
      rw [segment_one data w0 0 (by
        have hw := hq w0 (by simp)
        simp only [List.prod_nil, Nat.mul_one] at hdata
        omega)]
      rfl
    | d0 :: rest' =>
      simp only [wrapNDA, mkState, enterStrip]
      have hq1 : q'.length = 1 := by simpa using hqlen
      obtain ⟨w0, rfl⟩ := List.length_eq_one.mp hq1
      simp only [List.map_cons, List.map_nil]
      rw [show pyGet [((w0 * d0 : Nat) : Int)] 0 = .ok ((w0 * d0 : Nat) : Int) from rfl]
      rw [show pyGet [(((w0 + 1) * d0 : Nat) : Int)] (-1)
          = .ok (((w0 + 1) * d0 : Nat) : Int) from rfl]
      simp only [Except.bind, bind, Except.map, EnterRes.toTree, NDA.toTree]
      rw [sliceRange_treeList _ _ _ (denseContent_wf (P' * d0) rest' data)]
      simp only [wrapNDA, mkState, NDA.treeList, List.map_cons, List.map_nil,
        List.zip_cons_cons, List.zip_nil_right, List.cons.injEq, and_true] at htree
      rw [htree]
  | e0 :: E' =>
    simp only [wrapNDA, enterStrip]
    rw [show List.range 1 = [0] from rfl]
    simp only [List.map_cons, List.map_nil]
    rw [show pyGet [((0 * e0 : Nat) : Int)] 0 = .ok ((0 * e0 : Nat) : Int) from rfl]
    rw [show pyGet [(((0 + 1) * e0 : Nat) : Int)] (-1)
        = .ok (((0 + 1) * e0 : Nat) : Int) from rfl]
    simp only [Except.bind, bind, Except.map, EnterRes.toTree, NDA.toTree]
    rw [sliceRange_treeList _ _ _ (wrapNDA_wf (1 * e0) E' _ (mkState_wf P' ds' data q'))]
    simp only [wrapNDA] at htree
    rw [show List.range 1 = [0] from rfl] at htree
    simp only [NDA.treeList, List.map_cons, List.map_nil,
      List.zip_cons_cons, List.zip_nil_right, List.cons.injEq, and_true] at htree
    rw [htree]

/-- The engine on the ragged wrapping of a dense rectangular array: for a
valid 1-3 term index expression, `getitem_enter` succeeds and its result's
nested-list view is the dense tree over the wrapper dims the engine emits
plus the unconsumed trailing dims, with the selected row segments laid out
in row-major order. -/
theorem getitem_enter_dense (d : Nat) (ds : List Nat) (data : List Int)
    (slices : List RawTerm)
    (hdata : data.length = (d :: ds).prod)
    (hne : ¬ slices = [])
    (hlen : slices.length ≤ (d :: ds).length)
    (hterms : slices.length ≤ 3)
    (hval : rawValid (arraylen slices) false slices (d :: ds) = true) :
    (getitem_enter (denseWrap (d :: ds) data) slices).map EnterRes.toTree
      = .ok (denseTree
          (emitDims (d :: ds) (slices.map (normalizeTerm (arraylen slices))) false
            ++ (d :: ds).drop slices.length)
          ((rowOffsets (d :: ds) (slices.map (normalizeTerm (arraylen slices))) none).flatMap
            (fun x => segment data
              (x * (((d :: ds).drop slices.length).prod))
              (((d :: ds).drop slices.length).prod)))) := by
  rw [getitem_enter_eq _ _ (by simpa [List.isEmpty_iff] using hne)]
  have hdd : data.length = d * ds.prod := by simpa [List.prod_cons] using hdata
  have hfake : NDA.jag [0] [((denseWrap (d :: ds) data).len : Int)] (denseWrap (d :: ds) data)
      = mkState 1 (d :: ds) data [0] := by
    simp only [denseWrap, mkState]
    rw [denseContent_len d ds data hdd]
    simp
  rw [hfake]
  rw [getitem_next_mkState (arraylen slices) (slices.map (normalizeTerm (arraylen slices)))
    (d :: ds) 1 data [0] none
    (by simpa using hdata)
    (by simp)
    (by simp)
    (by simpa using hlen)
    (by
      have hb := rawValid_tvalid (arraylen slices) slices (d :: ds) false hval
      simpa using hb)
    (fun _ => ⟨by simpa using hterms, fun _ => rfl⟩)
    (fun ctx heq => absurd heq (by simp))]
  simp only [Except.bind]
  simp only [ctxPairs, List.map_cons, List.map_nil, List.flatMap_cons, List.flatMap_nil,
    List.append_nil, Nat.zero_mul, Nat.zero_add, List.map_id', Nat.one_mul, List.length_map,
    List.length_singleton, Option.isSome_none]
  rw [enterStrip_tree _ _ _ data _
    (by rw [List.prod_take_mul_prod_drop]; exact hdata)
    (by
      intro x hx
      have hb := rowOffsets_lt (arraylen slices) _ (d :: ds) none (by simpa using hlen)
        (by simpa using rawValid_tvalid (arraylen slices) slices (d :: ds) false hval)
        (fun cv hcv => absurd hcv (by simp))
        x hx
      simpa using hb)
    (by
      have hb := rowOffsets_length (slices.map (normalizeTerm (arraylen slices)))
        (d :: ds) none (by simpa using hlen)
      simpa using hb)]

end Awkward
